import Mathlib

/-!
# LZW archiver (`main.cpp`): shallow embedding and verified properties

The program compresses a text with the LZW algorithm.  The input is cut into
16 chunks, every chunk is encoded on its own into a sequence of `int32_t`
codes, and every code sequence is stored in one file
`<dir>/compressed_part_<k>.bin`.  Decompression reads the 16 files back,
decodes each one into its own output slot and concatenates the slots.

Modelling conventions.

* A `char` of a `std::string` is a `Byte = Fin 256`; a `std::string` is a
  list of bytes.
* A `std::unordered_map` is an association list with unique keys
  (`Map`); `operator[]` inserts a value-initialised entry when the key is
  absent, exactly as in C++.
* An `int32_t` code is an `Int`.  The conversions between `size_t` and
  `int32_t` in `compress` and `decompress`
  (`dictionary[next] = dictionary.size()`, `code == dictionary.size()`) are
  exact while a dictionary has fewer than `2^31` entries; the embedding takes
  them as exact.  The byte layout of a code in an artifact is modelled with
  explicit arithmetic modulo `2^32`.
* The chunk split of `archive` computes in `int`: `chunk_size` is converted
  from `size_t` modulo `2^32`, a product that leaves the range of `int` is the
  outcome `intOverflow` (undefined in the source; with the usual wrap-around
  the position lands behind the text and `substr` throws), and `substr` gets
  its arguments as 64-bit `size_t`.  Small counts (`num_chunks`, thread and
  chunk indices) are `Nat`.
* The source is C++17 (`std::filesystem`), so in `a[k] = e` the right-hand
  side `e` is evaluated before `a[k]` inserts the key.
* The file system is a function from paths to file contents; opening a file
  for writing succeeds, opening a missing file for reading fails.  The lines
  that `read_compressed_data` and `decompress_chunk` write to `std::cerr` are
  given by functions of their own; other console output, timing and size
  reports are left out.
* An exception that leaves a worker thread is not caught anywhere, so the
  process is terminated: `decompress_file` has the `Except.error` result and
  writes nothing.
* Worker threads touch pairwise different files and slots, as the theorem on
  the static chunk assignment shows; they are run one after the other in
  creation order.
* A `throw` is the `Except.error` result.
-/

namespace LZW

/-! ## Data model -/

/-- One `char` of a `std::string`, as its unsigned value. -/
abbrev Byte := Fin 256

/-- A `std::string`. -/
abbrev Str := List Byte

/-- The conversion `static_cast<char>(i)`. -/
def toChar (i : Nat) : Byte := Fin.ofNat i

/-- The element access `s[0]` of a `std::string`; on the empty string it is the
terminating null character. -/
def front (s : Str) : Byte := s.headD 0

/-- A `std::unordered_map<K, V>`: an association list whose keys are pairwise
different. -/
abbrev Map (κ : Type) (ν : Type) := List (κ × ν)

namespace Map

variable {κ ν : Type} [DecidableEq κ]

/-- The value stored under key `k`, if any. -/
def find? : Map κ ν → κ → Option ν
  | [], _ => none
  | (k1, v) :: rest, k => if k1 = k then some v else find? rest k

/-- The member function `count(k)`: 1 when the key is present, else 0. -/
def count (d : Map κ ν) (k : κ) : Nat :=
  match d.find? k with
  | some _ => 1
  | none => 0

/-- The member function `size()`. -/
def size (d : Map κ ν) : Nat := d.length

/-- The assignment `d[k] = v`: overwrites the entry of `k`, or adds one. -/
def assign : Map κ ν → κ → ν → Map κ ν
  | [], k, v => [(k, v)]
  | (k1, v1) :: rest, k, v =>
    if k1 = k then (k, v) :: rest else (k1, v1) :: assign rest k v

/-- The read access `d[k]`: the value of `k`, and the map afterwards; a key
that is absent is inserted with the value-initialised `dflt`. -/
def index (d : Map κ ν) (k : κ) (dflt : ν) : ν × Map κ ν :=
  match d.find? k with
  | some v => (v, d)
  | none => (dflt, d.assign k dflt)

end Map

/-! ## Encoder -/

/-- The dictionary after the seeding loop of `compress`:
`for i in 0..255: dictionary[string(1, char(i))] = i`. -/
def encSeed : Map Str Int :=
  (List.range 256).foldl (fun d (i : Nat) => d.assign [toChar i] (i : Int)) []

/-- The local variables of `compress` during its main loop. -/
structure EncState where
  dictionary : Map Str Int
  current : Str
  compressed_data : List Int

/-- One iteration of `for (char c : text)` in `compress`. -/
def compressStep (st : EncState) (c : Byte) : EncState :=
  let next := st.current ++ [c]
  if st.dictionary.count next ≠ 0 then
    { st with current := next }
  else
    let r := st.dictionary.index st.current 0
    let d := r.2.assign next (r.2.size : Int)
    { dictionary := d, current := [c], compressed_data := st.compressed_data ++ [r.1] }

/-- The state of `compress` when the main loop has consumed `text`. -/
def compressLoop (text : Str) : EncState :=
  text.foldl compressStep { dictionary := encSeed, current := [], compressed_data := [] }

/-- The final flush of `compress`: `if (!current.empty()) push_back(dictionary[current])`. -/
def compressFlush (st : EncState) : EncState :=
  if st.current ≠ [] then
    let r := st.dictionary.index st.current 0
    { dictionary := r.2, current := st.current, compressed_data := st.compressed_data ++ [r.1] }
  else st

/-- The function `compress`. -/
def compress (text : Str) : List Int :=
  (compressFlush (compressLoop text)).compressed_data

/-! ## Decoder -/

/-- The ways `decompress` can fail to return. -/
inductive DecodeError where
  /-- The exception `std::runtime_error("Error: Invalid compressed data!")`. -/
  | invalidData
  /-- The read `compressed_data[0]` of an empty vector, which the source leaves
  undefined. -/
  | emptyInput
  deriving DecidableEq

/-- The dictionary after the seeding loop of `decompress`:
`for i in 0..255: dictionary[i] = string(1, char(i))`. -/
def decSeed : Map Int Str :=
  (List.range 256).foldl (fun d (i : Nat) => d.assign (i : Int) [toChar i]) []

/-- The local variables of `decompress` during its main loop. -/
structure DecState where
  dictionary : Map Int Str
  prev_str : Str
  decompressed_text : Str

/-- The statements of `decompress` before its loop: the first code is looked up
with `operator[]` and its string starts the output. -/
def decompressInit (prev_code : Int) : DecState :=
  let r := decSeed.index prev_code []
  { dictionary := r.2, prev_str := r.1, decompressed_text := r.1 }

/-- One iteration of the loop of `decompress` on the code `code`. -/
def decompressStep (st : DecState) (code : Int) : Except DecodeError DecState :=
  if st.dictionary.count code ≠ 0 then
    let r := st.dictionary.index code []
    let str := r.1
    .ok { dictionary := r.2.assign (r.2.size : Int) (st.prev_str ++ [front str]),
          prev_str := str,
          decompressed_text := st.decompressed_text ++ str }
  else if code = (st.dictionary.size : Int) then
    let str := st.prev_str ++ [front st.prev_str]
    .ok { dictionary := st.dictionary.assign (st.dictionary.size : Int) (st.prev_str ++ [front str]),
          prev_str := str,
          decompressed_text := st.decompressed_text ++ str }
  else
    .error .invalidData

/-- The loop of `decompress` over the codes after the first. -/
def decompressLoop (st : DecState) : List Int → Except DecodeError DecState
  | [] => .ok st
  | code :: rest =>
    match decompressStep st code with
    | .ok st1 => decompressLoop st1 rest
    | .error e => .error e

/-- The function `decompress`. -/
def decompress : List Int → Except DecodeError Str
  | [] => .error .emptyInput
  | prev_code :: rest =>
    match decompressLoop (decompressInit prev_code) rest with
    | .ok st => .ok st.decompressed_text
    | .error e => .error e

/-- The text `"TOBEORNOTTOBEORTOBEORNOT"` as bytes. -/
def tobe : Str :=
  [84, 79, 66, 69, 79, 82, 78, 79, 84, 84, 79, 66, 69, 79, 82, 84, 79, 66, 69, 79, 82, 78, 79, 84]

/-! ## Artifact codec -/

/-- The file system: the content of every file that exists, by path. -/
abbrev FS := String → Option Str

/-- The file system after `data` has been written to a freshly truncated
file `path`. -/
def FS.write (fs : FS) (path : String) (data : Str) : FS :=
  fun q => if q = path then some data else fs q

/-- The object representation of an `int32_t`: the four bytes that
`write(reinterpret_cast<const char*>(&code), sizeof(int32_t))` emits, in
two's complement, least significant byte first. -/
def int32Bytes (code : Int) : Str :=
  let u : Nat := (code % 2 ^ 32).toNat
  [toChar u, toChar (u / 2 ^ 8), toChar (u / 2 ^ 16), toChar (u / 2 ^ 24)]

/-- The `int32_t` whose object representation is the four bytes
`b0 b1 b2 b3`, as `read(reinterpret_cast<char*>(&code), sizeof(int32_t))`
stores it. -/
def int32OfBytes (b0 b1 b2 b3 : Byte) : Int :=
  let u : Nat := b0.val + 2 ^ 8 * b1.val + 2 ^ 16 * b2.val + 2 ^ 24 * b3.val
  if u < 2 ^ 31 then (u : Int) else (u : Int) - 2 ^ 32

/-- The bytes that the loop of `save_compressed_data` writes. -/
def writeCodes : List Int → Str
  | [] => []
  | code :: rest => int32Bytes code ++ writeCodes rest

/-- The function `save_compressed_data`; opening the output file succeeds. -/
def save_compressed_data (compressed_data : List Int) (output_path : String) (fs : FS) : FS :=
  fs.write output_path (writeCodes compressed_data)

/-- The loop of `read_compressed_data`: codes are read while four bytes are
available; a shorter tail ends the loop. -/
def readCodes : Str → List Int
  | b0 :: b1 :: b2 :: b3 :: rest => int32OfBytes b0 b1 b2 b3 :: readCodes rest
  | _ => []

/-- The function `read_compressed_data`; a file that cannot be opened gives the
empty vector. -/
def read_compressed_data (input_path : String) (fs : FS) : List Int :=
  match fs input_path with
  | none => []
  | some bytes => readCodes bytes

/-! ## Compression pipeline -/

/-- The function `compress_chunk`. -/
def compress_chunk (chunk : Str) (output_path : String) (fs : FS) : FS :=
  save_compressed_data (compress chunk) output_path fs

/-- The path `dir + "/compressed_part_" + std::to_string(k) + ".bin"`. -/
def artifactPath (dir : String) (k : Nat) : String :=
  dir ++ "/compressed_part_" ++ toString k ++ ".bin"

/-- The function `threading_compression`; the loop variable `i` is carried as
`start_index + i`. -/
def threading_compression : List Str → String → Nat → FS → FS
  | [], _, _, fs => fs
  | chunk :: rest, output_directory, start_index, fs =>
    threading_compression rest output_directory (start_index + 1)
      (compress_chunk chunk (artifactPath output_directory start_index) fs)

/-- The member function `substr(pos, len)` for `pos ≤ size()`. -/
def substr (text : Str) (pos len : Nat) : Str := (text.drop pos).take len

/-- The statement `chunks.back() += tail`. -/
def appendToBack : List Str → Str → List Str
  | [], _ => []
  | [c], tail => [c ++ tail]
  | c :: rest, tail => c :: appendToBack rest tail

/-- The ways the chunk split of `archive` can fail. -/
inductive ArchiveError where
  /-- A product of two `int` values that does not fit an `int`; the source
  leaves the behaviour undefined. -/
  | intOverflow
  /-- The exception `std::out_of_range` of `substr`, for a position behind the end
  of the text. -/
  | outOfRange
  deriving DecidableEq

/-- The conversion of a `size_t` value to `int`: the value modulo `2^32`, read as
a signed number. -/
def intOfSize (n : Nat) : Int :=
  if n % 2 ^ 32 < 2 ^ 31 then ((n % 2 ^ 32 : Nat) : Int)
  else ((n % 2 ^ 32 : Nat) : Int) - 2 ^ 32

/-- The conversion of an `int` to `size_t` (64 bits): the value modulo `2^64`. -/
def sizeOfInt (i : Int) : Nat := (i % 2 ^ 64).toNat

/-- The product `a * b` of two `int` values. -/
def mulInt (a b : Int) : Except ArchiveError Int :=
  if -2 ^ 31 ≤ a * b ∧ a * b < 2 ^ 31 then .ok (a * b) else .error .intOverflow

/-- The call `text.substr(pos, len)`, which throws when `pos > size()`. -/
def substrAt (text : Str) (pos len : Nat) : Except ArchiveError Str :=
  if pos ≤ text.length then .ok (substr text pos len) else .error .outOfRange

/-- The call `text.substr(pos)`, which throws when `pos > size()`. -/
def substrFrom (text : Str) (pos : Nat) : Except ArchiveError Str :=
  if pos ≤ text.length then .ok (text.drop pos) else .error .outOfRange

/-- The loop `for (i = 0; i < num_chunks; ++i)
chunks.push_back(text.substr(i * chunk_size, chunk_size))` of `archive`, for the
indices still to come: the chunks pushed.  The product is an `int`, the
arguments of `substr` are of type `size_t`. -/
def splitLoop (text : Str) (chunk_size : Int) : List Nat → Except ArchiveError (List Str)
  | [] => .ok []
  | i :: rest =>
    match mulInt (i : Int) chunk_size with
    | .error e => .error e
    | .ok pos =>
      match substrAt text (sizeOfInt pos) (sizeOfInt chunk_size) with
      | .error e => .error e
      | .ok chunk =>
        match splitLoop text chunk_size rest with
        | .error e => .error e
        | .ok chunks => .ok (chunk :: chunks)

/-- The chunk split of `archive`: `int chunk_size = text.size() / num_chunks`, 16
chunks of `chunk_size` bytes, and `text.substr(num_chunks * chunk_size)`
appended to the last one when the size is no multiple of 16. -/
def splitChunks (text : Str) : Except ArchiveError (List Str) :=
  let num_chunks : Nat := 16
  let chunk_size : Int := intOfSize (text.length / num_chunks)
  match splitLoop text chunk_size (List.range num_chunks) with
  | .error e => .error e
  | .ok chunks =>
    if text.length % num_chunks ≠ 0 then
      match mulInt (num_chunks : Int) chunk_size with
      | .error e => .error e
      | .ok pos =>
        match substrFrom text (sizeOfInt pos) with
        | .error e => .error e
        | .ok tail => .ok (appendToBack chunks tail)
    else .ok chunks

/-- The loop `for (i = 0; i < count_threads; ++i)` of `archive` and of
`decompress_file`: the arguments given to the threads, i.e. for every thread
the slice `[chunk_index, chunk_index + chunks_per_thread)` of `items` and its
`chunk_index`.  `n` counts the threads still to be created. -/
def threadArgsFrom {α : Type} (items : List α) (chunks_per_thread : Nat) :
    Nat → Nat → List (List α × Nat)
  | 0, _ => []
  | n + 1, chunk_index =>
    ((items.drop chunk_index).take chunks_per_thread, chunk_index) ::
      threadArgsFrom items chunks_per_thread n (chunk_index + chunks_per_thread)

/-- The arguments of all threads, with `chunks_per_thread = 16 / count_threads`. -/
def threadArgs {α : Type} (items : List α) (count_threads : Nat) : List (List α × Nat) :=
  threadArgsFrom items (16 / count_threads) count_threads 0

/-- The part of `archive` after the input text has been read: split, dispatch to
the threads, join; the result is the file system left behind.  A split that
fails ends the process before a thread is started, so nothing is written. -/
def archiveText (text : Str) (count_threads : Nat) (fs : FS) : FS :=
  let output_directory := "output"
  match splitChunks text with
  | .error _ => fs
  | .ok chunks =>
    (threadArgs chunks count_threads).foldl
      (fun fs1 a => threading_compression a.1 output_directory a.2 fs1) fs

/-- The function `archive`: the file system it leaves behind; an input file that
cannot be opened ends it. -/
def archive (input_file : String) (count_threads : Nat) (fs : FS) : FS :=
  match fs input_file with
  | none => fs
  | some text => archiveText text count_threads fs

/-! ## Decompression pipeline -/

/-- The function `decompress_chunk`: the new value of the slot `output`. -/
def decompress_chunk (input_file : String) (output : Str) (fs : FS) :
    Except DecodeError Str :=
  let compressed_data := read_compressed_data input_file fs
  if compressed_data = [] then .ok output
  else decompress compressed_data

/-- The function `threading_decompression`; the loop variable `i` is carried as
`start_index + i`. -/
def threading_decompression (fs : FS) :
    List String → List Str → Nat → Except DecodeError (List Str)
  | [], outputs, _ => .ok outputs
  | input_file :: rest, outputs, start_index =>
    match decompress_chunk input_file (outputs.getD start_index []) fs with
    | .ok output =>
      threading_decompression fs rest (outputs.set start_index output) (start_index + 1)
    | .error e => .error e

/-- The threads of `decompress_file`, run one after the other on the slots. -/
def runDecompressionThreads (fs : FS) :
    List (List String × Nat) → List Str → Except DecodeError (List Str)
  | [], outputs => .ok outputs
  | a :: rest, outputs =>
    match threading_decompression fs a.1 outputs a.2 with
    | .ok outputs1 => runDecompressionThreads fs rest outputs1
    | .error e => .error e

/-- The variable `full_text` of `decompress_file`: the concatenation of the 16
slots after all threads have been joined. -/
def decompressText (input_directory : String) (count_threads : Nat) (fs : FS) :
    Except DecodeError Str :=
  let input_files := (List.range 16).map (artifactPath input_directory)
  let outputs : List Str := List.replicate 16 []
  match runDecompressionThreads fs (threadArgs input_files count_threads) outputs with
  | .ok outputs1 => .ok outputs1.flatten
  | .error e => .error e

/-- The function `decompress_file`: `full_text` is written to `output.txt`. -/
def decompress_file (input_directory : String) (count_threads : Nat) (fs : FS) :
    Except DecodeError FS :=
  match decompressText input_directory count_threads fs with
  | .ok full_text => .ok (fs.write "output.txt" full_text)
  | .error e => .error e

/-! ## Entry point -/

/-- A call that `main` makes. -/
inductive Call where
  | archive (input_file : String) (count_threads : Int)
  | decompress_file (input_directory : String) (count_threads : Int)
  deriving DecidableEq

/-- The outcome of a run of `main`: the exit status (`none` when an exception of
`decompress` ended the process), the calls made, and the file system left
behind.  The status does not record a failure of the chunk split or of the size
reports. -/
structure MainRun where
  status : Option Int
  calls : List Call
  fs : FS

/-- The test `count_threads != 1 && ... && count_threads != 16` of `main`. -/
def invalidThreads (count_threads : Int) : Bool :=
  count_threads != 1 && count_threads != 2 && count_threads != 4 &&
    count_threads != 8 && count_threads != 16

/-- The function `main` on the values read from standard input: the mode, the
number of threads and the path. -/
def main (mode count_threads : Int) (path : String) (fs : FS) : MainRun :=
  if mode = 1 then
    if invalidThreads count_threads then
      { status := some 1, calls := [], fs := fs }
    else
      { status := some 0, calls := [Call.archive path count_threads],
        fs := archive path count_threads.toNat fs }
  else if mode = 2 then
    if invalidThreads count_threads then
      { status := some 1, calls := [], fs := fs }
    else
      match decompress_file path count_threads.toNat fs with
      | .ok fs1 =>
        { status := some 0, calls := [Call.decompress_file path count_threads], fs := fs1 }
      | .error _ =>
        { status := none, calls := [Call.decompress_file path count_threads], fs := fs }
  else
    { status := some 1, calls := [], fs := fs }


/-! ## Messages on the error stream -/

/-- The lines that `read_compressed_data` writes to `std::cerr`: one line when the
file cannot be opened. -/
def read_compressed_data_cerr (input_path : String) (fs : FS) : List String :=
  match fs input_path with
  | none => ["Error: Unable to open input file!"]
  | some _ => []

/-- The lines that a call of `decompress_chunk` writes to `std::cerr`: those of
`read_compressed_data`, and one line when no code was read. -/
def decompress_chunk_cerr (input_file : String) (fs : FS) : List String :=
  read_compressed_data_cerr input_file fs ++
    (if read_compressed_data input_file fs = [] then
      ["Error: Unable to read compressed data from file " ++ input_file]
    else [])

/-! ## Vocabulary of the proofs -/

deriving instance DecidableEq for Except

/-- The seeded encoder dictionary, entry by entry. -/
def encSeedList : Map Str Int := (List.range 256).map (fun (i : Nat) => ([toChar i], (i : Int)))

/-- The seeded decoder dictionary, entry by entry. -/
def decSeedList : Map Int Str := (List.range 256).map (fun (i : Nat) => ((i : Int), [toChar i]))

/-- The seeded entries: the one-byte string of `b` and the code `b`. -/
def IsSingle (s : Str) (k : Int) : Prop := ∃ b : Byte, s = [b] ∧ k = (b.val : Int)

/-- The relation between the encoder, which holds the dictionary `D` and the
running string `w`, and the decoder, which holds `E` and has just produced
`prev`: `D` is the inverse of `E` plus the one entry the decoder has not yet
added. -/
structure Sync (D : Map Str Int) (w : Str) (E : Map Int Str) (prev : Str) : Prop where
  inv : ∀ s c, D.find? s = some c ↔
    (E.find? c = some s ∨ (s = prev ++ [front w] ∧ c = (E.size : Int)))
  keys : ∀ c : Int, E.find? c ≠ none ↔ (0 ≤ c ∧ c < (E.size : Int))
  size : D.size = E.size + 1
  prev_ne : prev ≠ []
  cur_ne : w ≠ []
  cur_in : D.find? w ≠ none
  singles : ∀ b : Byte, E.find? (b.val : Int) = some [b]


/-- A decoder dictionary in good order: its keys are the codes `0 .. size-1` and
every seeded code still maps to its one-byte string. -/
structure DecOK (E : Map Int Str) : Prop where
  keys : ∀ c : Int, E.find? c ≠ none ↔ (0 ≤ c ∧ c < (E.size : Int))
  singles : ∀ b : Byte, E.find? (b.val : Int) = some [b]

/-- The byte whose value is the code `c`, for `0 ≤ c ≤ 255`. -/
def byteOfCode (c : Int) : Byte := toChar c.toNat

/-- A value of type `int32_t`. -/
def IsInt32 (c : Int) : Prop := -2 ^ 31 ≤ c ∧ c < 2 ^ 31

/-- The legal worker counts. -/
def LegalThreads (n : Int) : Prop := n = 1 ∨ n = 2 ∨ n = 4 ∨ n = 8 ∨ n = 16

/-- An encoder state in good order: the codes in the dictionary are below its
size, one entry has been added per emitted code, the running string is a key
unless it is empty, the seeded entries are in place, and the code emitted at
position `j` is at most `255 + j`. -/
structure EncOK (st : EncState) : Prop where
  vals : ∀ s c, st.dictionary.find? s = some c → 0 ≤ c ∧ c < (st.dictionary.size : Int)
  size : st.dictionary.size = 256 + st.compressed_data.length
  cur : st.current ≠ [] → st.dictionary.find? st.current ≠ none
  singles : ∀ b : Byte, st.dictionary.find? [b] = some (b.val : Int)
  codes : ∀ (j : Nat) (c : Int), st.compressed_data[j]? = some c → 0 ≤ c ∧ c ≤ 255 + (j : Int)

/-- The number of codes that the running string `w` still stands for: 1 unless it
is empty. -/
def pending (w : Str) : Nat := if w = [] then 0 else 1

/-- An encoder dictionary whose codes are pairwise different and are exactly the
numbers `0 .. size-1`. -/
structure EncBij (D : Map Str Int) : Prop where
  inj : ∀ s1 s2 c, D.find? s1 = some c → D.find? s2 = some c → s1 = s2
  onto : ∀ c : Int, (∃ s, D.find? s = some c) ↔ (0 ≤ c ∧ c < (D.size : Int))

/-- The 16 pairs of artifact index and code sequence found in the directory `dir`. -/
def artifactCodes (dir : String) (fs : FS) : List (Nat × List Int) :=
  (List.range 16).map (fun k => (k, read_compressed_data (artifactPath dir k) fs))

/-- A directory `output` of 16 artifacts in which artifact 3 holds the codes
`65, 300` and every other artifact the codes `72, 105`. -/
def corruptArtifacts : FS :=
  fun q =>
    if q = artifactPath "output" 3 then some (writeCodes [65, 300])
    else some (writeCodes [72, 105])

/-- The split as the specification describes it, in exact arithmetic: 16 chunks of
`size / 16` bytes, and the rest of the text appended to the last one. -/
def idealChunks (text : Str) : List Str :=
  let num_chunks := 16
  let chunk_size := text.length / num_chunks
  let chunks := (List.range num_chunks).map (fun i => substr text (i * chunk_size) chunk_size)
  if text.length % num_chunks ≠ 0 then
    appendToBack chunks (text.drop (num_chunks * chunk_size))
  else chunks

/-- A text of `2^31 + 1` bytes, all zero. -/
def overTwoGiB : Str := List.replicate (2 ^ 31 + 1) 0

/-- A file system that holds the text `overTwoGiB` in the file `in.txt` and nothing
else. -/
def overTwoGiBInput : FS := fun q => if q = "in.txt" then some overTwoGiB else none

/-! # Theorems -/

/-! ## Maps -/

namespace Map
variable {κ ν : Type} [DecidableEq κ]

theorem find?_assign (d : Map κ ν) (k : κ) (v : ν) (k1 : κ) :
    (d.assign k v).find? k1 = if k = k1 then some v else d.find? k1 := by
  induction d with
  | nil => simp [assign, find?]
  | cons e rest ih =>
    obtain ⟨k0, v0⟩ := e
    by_cases h0 : k0 = k
    · subst h0
      by_cases h1 : k0 = k1 <;> simp [assign, find?, h1]
    · by_cases h1 : k0 = k1
      · subst h1
        have : ¬ k = k0 := fun e => h0 e.symm
        simp [assign, find?, h0, this]
      · simp [assign, find?, h0, h1, ih]

theorem assign_of_none (d : Map κ ν) (k : κ) (v : ν) (h : d.find? k = none) :
    d.assign k v = d ++ [(k, v)] := by
  induction d with
  | nil => rfl
  | cons e rest ih =>
    obtain ⟨k0, v0⟩ := e
    by_cases h0 : k0 = k
    · simp [find?, h0] at h
    · simp only [find?, h0, if_false] at h
      simp [assign, h0, ih h]

theorem size_assign_of_none (d : Map κ ν) (k : κ) (v : ν) (h : d.find? k = none) :
    (d.assign k v).size = d.size + 1 := by
  rw [assign_of_none d k v h]; simp [size]

theorem size_assign_of_some (d : Map κ ν) (k : κ) (v x : ν) (h : d.find? k = some x) :
    (d.assign k v).size = d.size := by
  induction d with
  | nil => simp [find?] at h
  | cons e rest ih =>
    obtain ⟨k0, v0⟩ := e
    by_cases h0 : k0 = k
    · simp [assign, h0, size]
    · simp only [find?, h0, if_false] at h
      have := ih h
      simp only [size] at this
      simp [assign, h0, size, this]

theorem find?_append_singleton (d : Map κ ν) (k : κ) (v : ν) (k1 : κ) :
    find? (d ++ [(k, v)]) k1 = match d.find? k1 with
      | some x => some x
      | none => if k = k1 then some v else none := by
  induction d with
  | nil => simp [find?]
  | cons e rest ih =>
    obtain ⟨k0, v0⟩ := e
    by_cases h0 : k0 = k1
    · simp [find?, h0]
    · simp [find?, h0, ih]

/-- A seeding loop over pairwise different keys builds the list of its
entries in order. -/
theorem foldl_assign_range (key : Nat → κ) (val : Nat → ν) (n : Nat)
    (hinj : ∀ i j, i < n → j < n → key i = key j → i = j) :
    (List.range n).foldl (fun (d : Map κ ν) i => d.assign (key i) (val i)) [] =
      (List.range n).map (fun i => (key i, val i)) ∧
    ∀ k, find? ((List.range n).map (fun i => (key i, val i))) k = none ↔ ∀ i, i < n → key i ≠ k := by
  induction n with
  | zero => simp [find?]
  | succ n ih =>
    have ih1 := ih (fun i j hi hj => hinj i j (by omega) (by omega))
    have hfresh : find? ((List.range n).map (fun i => (key i, val i))) (key n) = none := by
      rw [ih1.2]
      intro i hi e
      have := hinj i n (by omega) (by omega) e
      omega
    constructor
    · rw [List.range_succ, List.foldl_append, ih1.1]
      simp only [List.foldl_cons, List.foldl_nil, List.map_append, List.map_cons, List.map_nil]
      exact assign_of_none _ _ _ hfresh
    · intro k
      rw [List.range_succ, List.map_append]
      simp only [List.map_cons, List.map_nil]
      rw [find?_append_singleton]
      constructor
      · intro h i hi
        cases hf : find? ((List.range n).map (fun i => (key i, val i))) k with
        | some x => rw [hf] at h; simp at h
        | none =>
          rw [hf] at h
          by_cases hk : key n = k
          · simp [hk] at h
          · by_cases hin : i = n
            · subst hin; exact hk
            · exact (ih1.2 k).1 hf i (by omega)
      · intro h
        have h1 : find? ((List.range n).map (fun i => (key i, val i))) k = none :=
          (ih1.2 k).2 (fun i hi => h i (by omega))
        rw [h1]
        simp [h n (by omega)]


theorem count_eq_zero_iff (d : Map κ ν) (k : κ) : d.count k = 0 ↔ d.find? k = none := by
  unfold count
  cases d.find? k <;> simp

theorem count_ne_zero_iff (d : Map κ ν) (k : κ) : d.count k ≠ 0 ↔ d.find? k ≠ none := by
  rw [Ne, count_eq_zero_iff]

theorem index_of_some (d : Map κ ν) (k : κ) (dflt v : ν) (h : d.find? k = some v) :
    d.index k dflt = (v, d) := by
  unfold index; rw [h]

theorem index_of_none (d : Map κ ν) (k : κ) (dflt : ν) (h : d.find? k = none) :
    d.index k dflt = (dflt, d.assign k dflt) := by
  unfold index; rw [h]


theorem find?_map_some (key : Nat → κ) (val : Nat → ν) (l : List Nat) (k : κ) (v : ν)
    (h : find? (l.map (fun i => (key i, val i))) k = some v) :
    ∃ i, i ∈ l ∧ key i = k ∧ val i = v := by
  induction l with
  | nil => simp [find?] at h
  | cons a r ih =>
    simp only [List.map_cons, find?] at h
    by_cases ha : key a = k
    · rw [if_pos ha] at h
      exact ⟨a, by simp, ha, by simpa using h⟩
    · rw [if_neg ha] at h
      obtain ⟨i, hi, h1, h2⟩ := ih h
      exact ⟨i, by simp [hi], h1, h2⟩

theorem find?_map_mem (key : Nat → κ) (val : Nat → ν) (l : List Nat)
    (hinj : ∀ i j, i ∈ l → j ∈ l → key i = key j → i = j) (i : Nat) (hi : i ∈ l) :
    find? (l.map (fun i => (key i, val i))) (key i) = some (val i) := by
  induction l with
  | nil => simp at hi
  | cons a r ih =>
    simp only [List.map_cons, find?]
    by_cases ha : key a = key i
    · rw [if_pos ha]
      have := hinj a i (by simp) hi ha
      rw [this]
    · rw [if_neg ha]
      have hir : i ∈ r := by
        rcases List.mem_cons.1 hi with e | e
        · exact absurd (by rw [e]) ha
        · exact e
      exact ih (fun x y hx hy => hinj x y (by simp [hx]) (by simp [hy])) hir

end Map

theorem toChar_val (i : Nat) : (toChar i).val = i % 256 := rfl

theorem toChar_inj (i j : Nat) (hi : i < 256) (hj : j < 256) (h : toChar i = toChar j) : i = j := by
  have := congrArg Fin.val h
  rw [toChar_val, toChar_val] at this
  omega

theorem toChar_of_val (b : Byte) : toChar b.val = b := by
  apply Fin.ext
  rw [toChar_val]
  exact Nat.mod_eq_of_lt b.isLt

theorem encSeed_eq : encSeed = encSeedList :=
  (Map.foldl_assign_range (fun i => [toChar i]) (fun i => (i : Int)) 256
    (fun i j hi hj h => toChar_inj i j hi hj (by simpa using h))).1

theorem decSeed_eq : decSeed = decSeedList :=
  (Map.foldl_assign_range (fun i => (i : Int)) (fun i => [toChar i]) 256
    (fun i j _ _ h => by simpa using h)).1


/-! ## Encoder and decoder in lockstep -/

theorem front_append (w : Str) (c : Byte) (h : w ≠ []) : front (w ++ [c]) = front w := by
  cases w with
  | nil => exact absurd rfl h
  | cons a r => rfl

theorem Sync.fresh_key {D : Map Str Int} {w : Str} {E : Map Int Str} {prev : Str}
    (h : Sync D w E prev) : E.find? (E.size : Int) = none := by
  by_contra hc
  have := (h.keys _).1 hc
  omega

/-- The decoder turns the code of the encoder's running string back into that
string. -/
theorem Sync.decode {D : Map Str Int} {w : Str} {E : Map Int Str} {prev : Str}
    (h : Sync D w E prev) (code : Int) (hw : D.find? w = some code) (text : Str) :
    decompressStep { dictionary := E, prev_str := prev, decompressed_text := text } code =
      .ok { dictionary := E.assign (E.size : Int) (prev ++ [front w]), prev_str := w,
            decompressed_text := text ++ w } := by
  rcases (h.inv w code).1 hw with h1 | ⟨h1, h2⟩
  · have hc : E.count code ≠ 0 := by rw [Map.count_ne_zero_iff, h1]; simp
    simp only [decompressStep, hc, ne_eq, not_false_eq_true, if_true, Map.index_of_some _ _ _ _ h1]
  · subst h2
    have hc : ¬ E.count (E.size : Int) ≠ 0 := by
      rw [Map.count_ne_zero_iff, h.fresh_key]; simp
    have hfw : front w = front prev := by
      have := congrArg front h1
      rw [front_append _ _ h.prev_ne] at this
      exact this
    have hw2 : prev ++ [front prev] = w := by rw [← hfw]; exact h1.symm
    simp only [decompressStep, hc, if_false, if_true, hw2]

theorem Sync.hit {D : Map Str Int} {w : Str} {E : Map Int Str} {prev : Str}
    (h : Sync D w E prev) (c : Byte) (hin : D.find? (w ++ [c]) ≠ none) :
    Sync D (w ++ [c]) E prev where
  inv := by rw [front_append _ _ h.cur_ne]; exact h.inv
  keys := h.keys
  size := h.size
  prev_ne := h.prev_ne
  cur_ne := by simp
  cur_in := hin
  singles := h.singles

theorem Sync.miss {D : Map Str Int} {w : Str} {E : Map Int Str} {prev : Str}
    (h : Sync D w E prev) (c : Byte) (hout : D.find? (w ++ [c]) = none) :
    Sync (D.assign (w ++ [c]) (D.size : Int)) [c]
      (E.assign (E.size : Int) (prev ++ [front w])) w := by
  have hfresh := h.fresh_key
  have hsizeE : (E.assign (E.size : Int) (prev ++ [front w])).size = E.size + 1 :=
    Map.size_assign_of_none _ _ _ hfresh
  have hsizeD : (D.assign (w ++ [c]) (D.size : Int)).size = D.size + 1 :=
    Map.size_assign_of_none _ _ _ hout
  have hDE : (D.size : Int) = (E.size : Int) + 1 := by rw [h.size]; push_cast; rfl
  refine ⟨?_, ?_, ?_, h.cur_ne, by simp, ?_, ?_⟩
  · intro s k
    rw [Map.find?_assign, Map.find?_assign, hsizeE]
    have hfc : front [c] = c := rfl
    rw [hfc]
    by_cases hs : w ++ [c] = s
    · subst hs
      rw [if_pos rfl]
      constructor
      · intro hk
        have hk2 : (D.size : Int) = k := by simpa using hk
        exact Or.inr ⟨rfl, by rw [← hk2, hDE]; push_cast; rfl⟩
      · rintro (hk | ⟨_, hk⟩)
        · exfalso
          by_cases he : (E.size : Int) = k
          · rw [if_pos he] at hk
            have hk2 : prev ++ [front w] = w ++ [c] := by simpa using hk
            have := (h.inv (w ++ [c]) (E.size : Int)).2 (Or.inr ⟨hk2.symm, rfl⟩)
            rw [hout] at this; cases this
          · rw [if_neg he] at hk
            have := (h.inv (w ++ [c]) k).2 (Or.inl hk)
            rw [hout] at this; cases this
        · rw [hk, hDE]; push_cast; rfl
    · rw [if_neg hs, h.inv s k]
      have hs2 : ¬ s = w ++ [c] := fun e => hs e.symm
      by_cases he : (E.size : Int) = k
      · subst he
        rw [if_pos rfl, hfresh]
        simp [hs2, eq_comm]
      · rw [if_neg he]
        have he2 : ¬ k = (E.size : Int) := fun e => he e.symm
        simp [hs2, he2]
  · intro k
    rw [Map.find?_assign, hsizeE]
    by_cases he : (E.size : Int) = k
    · rw [if_pos he]; subst he
      simp only [ne_eq, reduceCtorEq, not_false_eq_true, true_iff]
      push_cast; omega
    · rw [if_neg he, h.keys]
      push_cast
      constructor
      · rintro ⟨a, b⟩; exact ⟨a, by omega⟩
      · rintro ⟨a, b⟩; exact ⟨a, by omega⟩
  · rw [hsizeD, hsizeE, h.size]
  · rw [Map.find?_assign]
    have hne : ¬ w ++ [c] = [c] := by
      intro e
      have := congrArg List.length e
      have hw := List.length_pos.2 h.cur_ne
      simp only [List.length_append, List.length_singleton] at this; omega
    rw [if_neg hne]
    have := (h.inv [c] (c.val : Int)).2 (Or.inl (h.singles c))
    rw [this]; simp
  · intro b
    rw [Map.find?_assign]
    have : ¬ (E.size : Int) = (b.val : Int) := by
      intro e
      have := h.singles b
      rw [← e, hfresh] at this; cases this
    rw [if_neg this]; exact h.singles b


/-! ## The seeded dictionaries -/

theorem encSeed_find? (s : Str) (k : Int) : encSeed.find? s = some k ↔ IsSingle s k := by
  rw [encSeed_eq, encSeedList]
  constructor
  · intro h
    obtain ⟨i, hi, h1, h2⟩ := Map.find?_map_some _ _ _ _ _ h
    rw [List.mem_range] at hi
    refine ⟨toChar i, h1.symm, ?_⟩
    rw [toChar_val, Nat.mod_eq_of_lt hi, ← h2]
  · rintro ⟨b, rfl, rfl⟩
    have := Map.find?_map_mem (fun i => [toChar i]) (fun (i : Nat) => (i : Int)) (List.range 256)
      (fun i j hi hj h => toChar_inj i j (List.mem_range.1 hi) (List.mem_range.1 hj) (by simpa using h))
      b.val (List.mem_range.2 b.isLt)
    simp only [toChar_of_val] at this
    exact this

theorem decSeed_find? (k : Int) (s : Str) : decSeed.find? k = some s ↔ IsSingle s k := by
  rw [decSeed_eq, decSeedList]
  constructor
  · intro h
    obtain ⟨i, hi, h1, h2⟩ := Map.find?_map_some _ _ _ _ _ h
    rw [List.mem_range] at hi
    refine ⟨toChar i, h2.symm, ?_⟩
    rw [toChar_val, Nat.mod_eq_of_lt hi, ← h1]
  · rintro ⟨b, rfl, rfl⟩
    have := Map.find?_map_mem (fun (i : Nat) => (i : Int)) (fun i => [toChar i]) (List.range 256)
      (fun i j _ _ h => by simpa using h)
      b.val (List.mem_range.2 b.isLt)
    simp only [toChar_of_val] at this
    exact this

theorem encSeed_size : encSeed.size = 256 := by
  rw [encSeed_eq, encSeedList]; simp [Map.size]

theorem decSeed_size : decSeed.size = 256 := by
  rw [decSeed_eq, decSeedList]; simp [Map.size]

theorem decSeed_single (b : Byte) : decSeed.find? (b.val : Int) = some [b] :=
  (decSeed_find? _ _).2 ⟨b, rfl, rfl⟩

theorem encSeed_single (b : Byte) : encSeed.find? [b] = some (b.val : Int) :=
  (encSeed_find? _ _).2 ⟨b, rfl, rfl⟩

theorem decSeed_keys (c : Int) : decSeed.find? c ≠ none ↔ (0 ≤ c ∧ c < 256) := by
  constructor
  · intro h
    cases hf : decSeed.find? c with
    | none => exact absurd hf h
    | some s =>
      obtain ⟨b, _, rfl⟩ := (decSeed_find? _ _).1 hf
      have := b.isLt
      omega
  · rintro ⟨h0, h1⟩
    have hb : c.toNat < 256 := by omega
    have := decSeed_single ⟨c.toNat, hb⟩
    have hc : ((c.toNat : Nat) : Int) = c := Int.toNat_of_nonneg h0
    simp only [hc] at this
    rw [this]; simp

theorem encSeed_pair (a b : Byte) (r : Str) : encSeed.find? (a :: b :: r) = none := by
  cases hf : encSeed.find? (a :: b :: r) with
  | none => rfl
  | some k =>
    obtain ⟨x, hx, _⟩ := (encSeed_find? _ _).1 hf
    simp at hx

/-- After the first byte `a` has been emitted and the second byte `b` read, the
two sides are in lockstep. -/
theorem sync_start (a b : Byte) :
    Sync (encSeed.assign [a, b] (encSeed.size : Int)) [b] decSeed [a] where
  inv := by
    intro s k
    rw [Map.find?_assign, decSeed_size, encSeed_size]
    have hfb : front [b] = b := rfl
    by_cases hs : [a, b] = s
    · subst hs
      rw [if_pos rfl]
      constructor
      · intro h
        exact Or.inr ⟨by rw [hfb]; rfl, by simpa using h.symm⟩
      · rintro (h | ⟨_, h⟩)
        · obtain ⟨x, hx, _⟩ := (decSeed_find? _ _).1 h
          simp at hx
        · rw [h]
    · rw [if_neg hs, encSeed_find?, decSeed_find?]
      constructor
      · intro h; exact Or.inl h
      · rintro (h | ⟨h, _⟩)
        · exact h
        · exact absurd h.symm (by rw [hfb]; exact hs)
  keys := by
    intro c
    rw [decSeed_size]
    exact decSeed_keys c
  size := by
    rw [Map.size_assign_of_none _ _ _ (encSeed_pair a b []), encSeed_size, decSeed_size]
  prev_ne := by simp
  cur_ne := by simp
  cur_in := by
    rw [Map.find?_assign, if_neg (by simp), encSeed_single]
    simp
  singles := decSeed_single

/-! ## Round trip of one chunk -/

theorem compressStep_hit (st : EncState) (c : Byte)
    (h : st.dictionary.find? (st.current ++ [c]) ≠ none) :
    compressStep st c = { st with current := st.current ++ [c] } := by
  have hc : st.dictionary.count (st.current ++ [c]) ≠ 0 := (Map.count_ne_zero_iff _ _).2 h
  unfold compressStep
  simp only [hc, ne_eq, not_false_eq_true, if_true]

theorem compressStep_miss (st : EncState) (c : Byte) (code : Int)
    (h : st.dictionary.find? (st.current ++ [c]) = none)
    (hf : st.dictionary.find? st.current = some code) :
    compressStep st c =
      { dictionary := st.dictionary.assign (st.current ++ [c]) (st.dictionary.size : Int),
        current := [c], compressed_data := st.compressed_data ++ [code] } := by
  have hc : ¬ st.dictionary.count (st.current ++ [c]) ≠ 0 := by
    rw [Map.count_ne_zero_iff, h]; simp
  unfold compressStep
  simp only [hc, if_false, Map.index_of_some _ _ _ _ hf]

theorem compressFlush_some (st : EncState) (code : Int) (hne : st.current ≠ [])
    (hf : st.dictionary.find? st.current = some code) :
    (compressFlush st).compressed_data = st.compressed_data ++ [code] := by
  unfold compressFlush
  simp only [hne, ne_eq, not_false_eq_true, if_true, Map.index_of_some _ _ _ _ hf]

theorem decompressInit_single (a : Byte) :
    decompressInit (a.val : Int) =
      { dictionary := decSeed, prev_str := [a], decompressed_text := [a] } := by
  unfold decompressInit
  rw [Map.index_of_some _ _ _ _ (decSeed_single a)]

theorem lockstep (t : Str) : ∀ (st : EncState) (E : Map Int Str) (prev text : Str),
    Sync st.dictionary st.current E prev →
    ∃ (new : List Int) (ds : DecState),
      (compressFlush (t.foldl compressStep st)).compressed_data = st.compressed_data ++ new ∧
      decompressLoop { dictionary := E, prev_str := prev, decompressed_text := text } new = .ok ds ∧
      ds.decompressed_text = text ++ st.current ++ t := by
  induction t with
  | nil =>
    intro st E prev text h
    cases hf : st.dictionary.find? st.current with
    | none => exact absurd hf h.cur_in
    | some code =>
      refine ⟨[code], DecState.mk (E.assign (E.size : Int) (prev ++ [front st.current]))
        st.current (text ++ st.current), ?_, ?_, ?_⟩
      · rw [List.foldl_nil, compressFlush_some st code h.cur_ne hf]
      · simp only [decompressLoop, h.decode code hf text]
      · simp
  | cons c t ih =>
    intro st E prev text h
    rw [List.foldl_cons]
    cases hn : st.dictionary.find? (st.current ++ [c]) with
    | some v =>
      have hin : st.dictionary.find? (st.current ++ [c]) ≠ none := by rw [hn]; simp
      obtain ⟨new, ds, h1, h2, h3⟩ :=
        ih { st with current := st.current ++ [c] } E prev text (h.hit c hin)
      refine ⟨new, ds, ?_, h2, ?_⟩
      · rw [compressStep_hit st c hin]; exact h1
      · rw [h3]; simp
    | none =>
      cases hf : st.dictionary.find? st.current with
      | none => exact absurd hf h.cur_in
      | some code =>
        obtain ⟨new, ds, h1, h2, h3⟩ := ih
          { dictionary := st.dictionary.assign (st.current ++ [c]) (st.dictionary.size : Int),
            current := [c], compressed_data := st.compressed_data ++ [code] }
          (E.assign (E.size : Int) (prev ++ [front st.current])) st.current
          (text ++ st.current) (h.miss c hn)
        refine ⟨code :: new, ds, ?_, ?_, ?_⟩
        · rw [compressStep_miss st c code hn hf, h1]; simp
        · simp only [decompressLoop, h.decode code hf text]
          exact h2
        · rw [h3]; simp



theorem compressStep_hit_mk (D : Map Str Int) (w : Str) (cd : List Int) (c : Byte)
    (h : D.find? (w ++ [c]) ≠ none) :
    compressStep { dictionary := D, current := w, compressed_data := cd } c =
      { dictionary := D, current := w ++ [c], compressed_data := cd } :=
  compressStep_hit { dictionary := D, current := w, compressed_data := cd } c h

theorem compressStep_miss_mk (D : Map Str Int) (w : Str) (cd : List Int) (c : Byte) (code : Int)
    (h : D.find? (w ++ [c]) = none) (hf : D.find? w = some code) :
    compressStep { dictionary := D, current := w, compressed_data := cd } c =
      { dictionary := D.assign (w ++ [c]) (D.size : Int), current := [c],
        compressed_data := cd ++ [code] } :=
  compressStep_miss { dictionary := D, current := w, compressed_data := cd } c code h hf

theorem compressFlush_mk (D : Map Str Int) (w : Str) (cd : List Int) (code : Int) (hne : w ≠ [])
    (hf : D.find? w = some code) :
    (compressFlush { dictionary := D, current := w, compressed_data := cd }).compressed_data =
      cd ++ [code] :=
  compressFlush_some { dictionary := D, current := w, compressed_data := cd } code hne hf

/-- The state of the encoder after the first byte: nothing is emitted yet. -/
theorem compressStep_first (a : Byte) :
    compressStep { dictionary := encSeed, current := [], compressed_data := [] } a =
      { dictionary := encSeed, current := [a], compressed_data := [] } := by
  have h := compressStep_hit_mk encSeed [] [] a (by rw [List.nil_append, encSeed_single]; simp)
  rw [List.nil_append] at h
  exact h

/-- The state of the encoder after the second byte: the first byte is emitted
and the first pair gets code 256. -/
theorem compressStep_second (a b : Byte) :
    compressStep { dictionary := encSeed, current := [a], compressed_data := [] } b =
      { dictionary := encSeed.assign [a, b] (encSeed.size : Int), current := [b],
        compressed_data := [(a.val : Int)] } := by
  have h := compressStep_miss_mk encSeed [a] [] b (a.val : Int)
    (by rw [List.singleton_append]; exact encSeed_pair a b []) (encSeed_single a)
  rw [List.singleton_append, List.nil_append] at h
  exact h

theorem compress_single (a : Byte) : compress [a] = [(a.val : Int)] := by
  unfold compress compressLoop
  rw [List.foldl_cons, List.foldl_nil, compressStep_first,
    compressFlush_mk encSeed [a] [] (a.val : Int) (by simp) (encSeed_single a), List.nil_append]

theorem lockstep_mk (t : Str) (D : Map Str Int) (w : Str) (cd : List Int) (E : Map Int Str)
    (prev text : Str) (h : Sync D w E prev) :
    ∃ (new : List Int) (ds : DecState),
      (compressFlush (t.foldl compressStep
        { dictionary := D, current := w, compressed_data := cd })).compressed_data = cd ++ new ∧
      decompressLoop { dictionary := E, prev_str := prev, decompressed_text := text } new = .ok ds ∧
      ds.decompressed_text = text ++ w ++ t :=
  lockstep t { dictionary := D, current := w, compressed_data := cd } E prev text h

theorem decompress_compress (s : Str) (hs : s ≠ []) : decompress (compress s) = .ok s := by
  cases s with
  | nil => exact absurd rfl hs
  | cons a t =>
    cases t with
    | nil =>
      rw [compress_single]
      unfold decompress
      simp only [decompressInit_single, decompressLoop]
    | cons b t =>
      obtain ⟨new, ds, e1, e2, e3⟩ := lockstep_mk t _ _ [(a.val : Int)] _ _ [a] (sync_start a b)
      have hc : compress (a :: b :: t) = (a.val : Int) :: new := by
        unfold compress compressLoop
        rw [List.foldl_cons, List.foldl_cons, compressStep_first, compressStep_second, e1]
        simp only [List.singleton_append]
      rw [hc]
      unfold decompress
      simp only [decompressInit_single, e2, e3]
      simp

/-! ## Decoding literal codes -/

/-- The seeded decoder dictionary is in good order. -/
theorem decSeed_ok : DecOK decSeed where
  keys := by intro c; rw [decSeed_size]; exact decSeed_keys c
  singles := decSeed_single

theorem DecOK.next_free {E : Map Int Str} (h : DecOK E) : E.find? (E.size : Int) = none := by
  by_contra hc
  have := (h.keys _).1 hc
  omega

theorem DecOK.assign {E : Map Int Str} (h : DecOK E) (x : Str) :
    DecOK (E.assign (E.size : Int) x) := by
  have hsize : (E.assign (E.size : Int) x).size = E.size + 1 :=
    Map.size_assign_of_none _ _ _ h.next_free
  constructor
  · intro k
    rw [Map.find?_assign, hsize]
    by_cases he : (E.size : Int) = k
    · rw [if_pos he]; subst he
      simp only [ne_eq, reduceCtorEq, not_false_eq_true, true_iff]
      push_cast; omega
    · rw [if_neg he, h.keys]
      push_cast
      constructor
      · rintro ⟨a, b⟩; exact ⟨a, by omega⟩
      · rintro ⟨a, b⟩; exact ⟨a, by omega⟩
  · intro b
    rw [Map.find?_assign]
    have : ¬ (E.size : Int) = (b.val : Int) := by
      intro e
      have := h.singles b
      rw [← e, h.next_free] at this; cases this
    rw [if_neg this]; exact h.singles b

theorem byteOfCode_val (c : Int) (h0 : 0 ≤ c) (h1 : c ≤ 255) : ((byteOfCode c).val : Int) = c := by
  unfold byteOfCode
  rw [toChar_val, Nat.mod_eq_of_lt (by omega)]
  exact Int.toNat_of_nonneg h0

theorem decompressStep_literal (E : Map Int Str) (prev text : Str) (code : Int) (h : DecOK E)
    (h0 : 0 ≤ code) (h1 : code ≤ 255) :
    decompressStep { dictionary := E, prev_str := prev, decompressed_text := text } code =
      .ok { dictionary := E.assign (E.size : Int) (prev ++ [byteOfCode code]),
            prev_str := [byteOfCode code], decompressed_text := text ++ [byteOfCode code] } := by
  have hf : E.find? code = some [byteOfCode code] := by
    have := h.singles (byteOfCode code)
    rw [byteOfCode_val code h0 h1] at this
    exact this
  have hc : E.count code ≠ 0 := by rw [Map.count_ne_zero_iff, hf]; simp
  have hfr : front [byteOfCode code] = byteOfCode code := rfl
  simp only [decompressStep, hc, ne_eq, not_false_eq_true, if_true, Map.index_of_some _ _ _ _ hf,
    hfr]

theorem decompressLoop_literals (rest : List Int) :
    ∀ (E : Map Int Str) (prev text : Str), DecOK E → (∀ c ∈ rest, 0 ≤ c ∧ c ≤ 255) →
      ∃ ds, decompressLoop { dictionary := E, prev_str := prev, decompressed_text := text } rest
          = .ok ds ∧
        ds.decompressed_text = text ++ rest.map byteOfCode ∧ DecOK ds.dictionary := by
  induction rest with
  | nil =>
    intro E prev text h _
    exact ⟨_, rfl, by simp, h⟩
  | cons code rest ih =>
    intro E prev text h hr
    have hcode := hr code (by simp)
    obtain ⟨ds, e1, e2, e3⟩ := ih (E.assign (E.size : Int) (prev ++ [byteOfCode code]))
      [byteOfCode code] (text ++ [byteOfCode code]) (h.assign _)
      (fun c hc => hr c (by simp [hc]))
    refine ⟨ds, ?_, ?_, e3⟩
    · simp only [decompressLoop, decompressStep_literal E prev text code h hcode.1 hcode.2]
      exact e1
    · rw [e2]; simp

theorem decompressInit_literal (c : Int) (h0 : 0 ≤ c) (h1 : c ≤ 255) :
    decompressInit c =
      { dictionary := decSeed, prev_str := [byteOfCode c], decompressed_text := [byteOfCode c] } := by
  have := decompressInit_single (byteOfCode c)
  rw [byteOfCode_val c h0 h1] at this
  exact this

/-! ## Artifact codec -/

theorem int32OfBytes_int32Bytes (c : Int) (h : IsInt32 c) :
    readCodes (int32Bytes c) = [c] := by
  obtain ⟨h0, h1⟩ := h
  simp only [int32Bytes, readCodes, int32OfBytes, toChar_val, List.cons.injEq, and_true]
  norm_num at h0 h1 ⊢
  split <;> omega

theorem readCodes_append (c : Int) (rest : Str) (h : IsInt32 c) :
    readCodes (int32Bytes c ++ rest) = c :: readCodes rest := by
  have := int32OfBytes_int32Bytes c h
  simp only [int32Bytes, readCodes, List.cons.injEq, and_true] at this
  simp only [int32Bytes, List.cons_append, List.nil_append, readCodes, this]
  rfl

theorem readCodes_writeCodes (cs : List Int) (h : ∀ c ∈ cs, IsInt32 c) :
    readCodes (writeCodes cs) = cs := by
  induction cs with
  | nil => rfl
  | cons c rest ih =>
    rw [writeCodes, readCodes_append c _ (h c (by simp)), ih (fun x hx => h x (by simp [hx]))]

theorem writeCodes_length (cs : List Int) : (writeCodes cs).length = 4 * cs.length := by
  induction cs with
  | nil => rfl
  | cons c rest ih =>
    rw [writeCodes, List.length_append, ih]
    simp only [int32Bytes, List.length_cons, List.length_nil]
    omega

theorem writeCodes_eq_flatten (cs : List Int) : writeCodes cs = (cs.map int32Bytes).flatten := by
  induction cs with
  | nil => rfl
  | cons c rest ih => rw [writeCodes, ih]; rfl

theorem read_save (cs : List Int) (path : String) (fs : FS) (h : ∀ c ∈ cs, IsInt32 c) :
    read_compressed_data path (save_compressed_data cs path fs) = cs := by
  simp only [read_compressed_data, save_compressed_data, FS.write, if_true]
  exact readCodes_writeCodes cs h

/-! ## Invariant of the encoder -/

theorem encOK_of_seed (D : Map Str Int) (hfind : ∀ s c, D.find? s = some c ↔ IsSingle s c)
    (hsize : D.size = 256) : EncOK { dictionary := D, current := [], compressed_data := [] } where
  vals := by
    intro s c h
    obtain ⟨b, _, rfl⟩ := (hfind s c).1 h
    show 0 ≤ (b.val : Int) ∧ (b.val : Int) < (D.size : Int)
    rw [hsize]
    have := b.isLt
    constructor <;> omega
  size := hsize
  cur := fun h => absurd rfl h
  singles := fun b => (hfind _ _).2 ⟨b, rfl, rfl⟩
  codes := by intro j c h; simp at h

theorem encOK_init : EncOK { dictionary := encSeed, current := [], compressed_data := [] } :=
  encOK_of_seed encSeed encSeed_find? encSeed_size

theorem codes_snoc (cd : List Int) (code : Int)
    (h : ∀ (j : Nat) (c : Int), cd[j]? = some c → 0 ≤ c ∧ c ≤ 255 + (j : Int))
    (hcode : 0 ≤ code ∧ code ≤ 255 + (cd.length : Int)) :
    ∀ (j : Nat) (c : Int), (cd ++ [code])[j]? = some c → 0 ≤ c ∧ c ≤ 255 + (j : Int) := by
  intro j c hj
  by_cases hlt : j < cd.length
  · rw [List.getElem?_append_left hlt] at hj
    exact h j c hj
  · rw [List.getElem?_append_right (by omega)] at hj
    have hj0 : j - cd.length = 0 := by
      by_contra hne
      have : ([code] : List Int)[j - cd.length]? = none := by
        apply List.getElem?_eq_none; simp; omega
      rw [this] at hj; cases hj
    rw [hj0] at hj
    have hc : code = c := by simpa using hj
    subst hc
    have : (j : Int) = (cd.length : Int) := by omega
    rw [this]; exact hcode

/-- In the miss branch the running string is not empty. -/
theorem EncOK.cur_ne_of_miss {st : EncState} (h : EncOK st) (c : Byte)
    (hn : st.dictionary.find? (st.current ++ [c]) = none) : st.current ≠ [] := by
  intro he
  rw [he, List.nil_append, h.singles c] at hn
  cases hn

theorem EncOK.step {st : EncState} (h : EncOK st) (c : Byte) : EncOK (compressStep st c) := by
  cases hn : st.dictionary.find? (st.current ++ [c]) with
  | some v =>
    have hin : st.dictionary.find? (st.current ++ [c]) ≠ none := by rw [hn]; simp
    rw [compressStep_hit st c hin]
    exact ⟨h.vals, h.size, fun _ => hin, h.singles, h.codes⟩
  | none =>
    have hne := h.cur_ne_of_miss c hn
    cases hf : st.dictionary.find? st.current with
    | none => exact absurd hf (h.cur hne)
    | some code =>
      rw [compressStep_miss st c code hn hf]
      have hsz : (st.dictionary.assign (st.current ++ [c]) (st.dictionary.size : Int)).size =
          st.dictionary.size + 1 := Map.size_assign_of_none _ _ _ hn
      have hcode := h.vals _ _ hf
      have hlong : ∀ b : Byte, ¬ st.current ++ [c] = [b] := by
        intro b e
        have := congrArg List.length e
        have hw := List.length_pos.2 hne
        simp only [List.length_append, List.length_singleton] at this; omega
      constructor
      · intro s k hk
        simp only [Map.find?_assign] at hk
        simp only [hsz]
        by_cases hs : st.current ++ [c] = s
        · rw [if_pos hs] at hk
          have : (st.dictionary.size : Int) = k := by simpa using hk
          push_cast; omega
        · rw [if_neg hs] at hk
          have := h.vals s k hk
          push_cast; omega
      · show (st.dictionary.assign (st.current ++ [c]) (st.dictionary.size : Int)).size =
          256 + (st.compressed_data ++ [code]).length
        rw [hsz, h.size, List.length_append, List.length_singleton]
        omega
      · intro _
        simp only [Map.find?_assign, if_neg (hlong c), h.singles c]
        simp
      · intro b
        simp only [Map.find?_assign, if_neg (hlong b), h.singles b]
      · apply codes_snoc _ _ h.codes
        have := h.size
        constructor
        · exact hcode.1
        · have h2 := hcode.2
          rw [this] at h2
          push_cast at h2; omega

theorem EncOK.foldl (t : Str) : ∀ st : EncState, EncOK st → EncOK (t.foldl compressStep st) := by
  induction t with
  | nil => intro st h; exact h
  | cons c t ih => intro st h; exact ih _ (h.step c)

/-- Every code of the final result at position `j` lies in `0 .. 255 + j`. -/
theorem EncOK.flush_codes {st : EncState} (h : EncOK st) :
    ∀ (j : Nat) (c : Int), (compressFlush st).compressed_data[j]? = some c →
      0 ≤ c ∧ c ≤ 255 + (j : Int) := by
  by_cases hne : st.current = []
  · have : compressFlush st = st := by
      unfold compressFlush; simp only [hne, ne_eq, not_true_eq_false, if_false]
    rw [this]; exact h.codes
  · cases hf : st.dictionary.find? st.current with
    | none => exact absurd hf (h.cur hne)
    | some code =>
      rw [compressFlush_some st code hne hf]
      apply codes_snoc _ _ h.codes
      have h2 := h.vals _ _ hf
      rw [h.size] at h2
      push_cast at h2
      constructor <;> omega

theorem compress_codes (s : Str) (j : Nat) (c : Int) (h : (compress s)[j]? = some c) :
    0 ≤ c ∧ c ≤ 255 + (j : Int) :=
  (encOK_init.foldl s).flush_codes j c h

/-! ## Number of emitted codes -/

theorem pending_le (w : Str) : pending w ≤ 1 := by
  unfold pending; split <;> omega

theorem compressStep_count (st : EncState) (h : EncOK st) (c : Byte) :
    (compressStep st c).compressed_data.length + pending (compressStep st c).current ≤
      st.compressed_data.length + pending st.current + 1 := by
  cases hn : st.dictionary.find? (st.current ++ [c]) with
  | some v =>
    have hin : st.dictionary.find? (st.current ++ [c]) ≠ none := by rw [hn]; simp
    rw [compressStep_hit st c hin]
    have := pending_le (st.current ++ [c])
    simp only; omega
  | none =>
    have hne := h.cur_ne_of_miss c hn
    cases hf : st.dictionary.find? st.current with
    | none => exact absurd hf (h.cur hne)
    | some code =>
      rw [compressStep_miss st c code hn hf]
      have h1 : pending st.current = 1 := by unfold pending; rw [if_neg hne]
      have h2 := pending_le [c]
      simp only [List.length_append, List.length_singleton]; omega

theorem compressLoop_count (t : Str) : ∀ st : EncState, EncOK st →
    (t.foldl compressStep st).compressed_data.length + pending (t.foldl compressStep st).current ≤
      st.compressed_data.length + pending st.current + t.length := by
  induction t with
  | nil => intro st _; simp
  | cons c t ih =>
    intro st h
    have h1 := ih _ (h.step c)
    have h2 := compressStep_count st h c
    simp only [List.foldl_cons, List.length_cons] at h1 ⊢
    omega

theorem compressFlush_count (st : EncState) (h : EncOK st) :
    (compressFlush st).compressed_data.length = st.compressed_data.length + pending st.current := by
  by_cases hne : st.current = []
  · have : compressFlush st = st := by
      unfold compressFlush; simp only [hne, ne_eq, not_true_eq_false, if_false]
    rw [this, hne]; rfl
  · cases hf : st.dictionary.find? st.current with
    | none => exact absurd hf (h.cur hne)
    | some code =>
      rw [compressFlush_some st code hne hf]
      unfold pending; rw [if_neg hne]; simp

theorem compress_length_le (s : Str) : (compress s).length ≤ s.length := by
  have h1 := compressLoop_count s _ encOK_init
  have h2 := compressFlush_count _ (encOK_init.foldl s)
  unfold compress compressLoop
  rw [h2]
  simpa [pending] using h1

/-- The codes of a chunk below 2 GiB are values of `int32_t`. -/
theorem compress_int32 (s : Str) (hs : s.length + 256 ≤ 2 ^ 31) : ∀ c ∈ compress s, IsInt32 c := by
  intro c hc
  obtain ⟨j, hj, hjc⟩ := List.mem_iff_getElem.1 hc
  have h1 := compress_codes s j c (by rw [List.getElem?_eq_getElem hj, hjc])
  have h2 := compress_length_le s
  unfold IsInt32
  norm_num at hs ⊢
  constructor <;> omega

theorem compress_nil : compress [] = [] := by
  unfold compress compressLoop compressFlush
  simp

/-! ## Chunk split -/

theorem appendToBack_length (l : List Str) (x : Str) : (appendToBack l x).length = l.length := by
  induction l with
  | nil => rfl
  | cons c rest ih =>
    cases rest with
    | nil => rfl
    | cons d r => simp only [appendToBack, List.length_cons] at ih ⊢; omega

theorem appendToBack_snoc (l : List Str) (c x : Str) :
    appendToBack (l ++ [c]) x = l ++ [c ++ x] := by
  induction l with
  | nil => rfl
  | cons d r ih =>
    cases r with
    | nil => simp [appendToBack]
    | cons e r2 =>
      simp only [List.cons_append] at ih ⊢
      simp only [appendToBack]
      rw [ih]

/-- The first `m` equal-sized pieces of the split. -/
theorem pieces_flatten (text : Str) (c m : Nat) :
    ((List.range m).map (fun i => substr text (i * c) c)).flatten = text.take (m * c) := by
  induction m with
  | zero => simp
  | succ m ih =>
    rw [List.range_succ, List.map_append, List.flatten_append, ih]
    simp only [List.map_cons, List.map_nil, List.flatten_cons, List.flatten_nil, List.append_nil,
      substr]
    rw [Nat.succ_mul, List.take_add]

theorem idealChunks_eq (text : Str) :
    idealChunks text =
      (List.range 15).map (fun i => substr text (i * (text.length / 16)) (text.length / 16)) ++
        [text.drop (15 * (text.length / 16))] := by
  unfold idealChunks
  simp only []
  have h16 : List.range 16 = List.range 15 ++ [15] := List.range_succ 15
  rw [h16, List.map_append]
  simp only [List.map_cons, List.map_nil]
  have hlen : 16 * (text.length / 16) ≤ text.length := Nat.mul_div_le _ _
  split
  · rw [appendToBack_snoc]
    congr 2
    simp only [substr]
    have h1 : List.drop (16 * (text.length / 16)) text
        = List.drop (text.length / 16) (List.drop (15 * (text.length / 16)) text) := by
      rw [List.drop_drop]; congr 1; omega
    rw [h1, List.take_append_drop]
  · rename_i h
    have h0 : text.length % 16 = 0 := by omega
    congr 2
    simp only [substr]
    apply List.take_of_length_le
    rw [List.length_drop]
    have := Nat.div_add_mod text.length 16
    omega

theorem idealChunks_length (text : Str) : (idealChunks text).length = 16 := by
  rw [idealChunks_eq]; simp

theorem idealChunks_flatten (text : Str) : (idealChunks text).flatten = text := by
  rw [idealChunks_eq, List.flatten_append, pieces_flatten]
  simp

theorem idealChunks_getD_lt (text : Str) (i : Nat) (hi : i < 15) :
    (idealChunks text).getD i [] = substr text (i * (text.length / 16)) (text.length / 16) := by
  rw [idealChunks_eq, List.getD_eq_getElem?_getD, List.getElem?_append_left (by simpa using hi)]
  simp [List.getElem?_map, List.getElem?_range hi]

theorem idealChunks_getD_last (text : Str) :
    (idealChunks text).getD 15 [] = text.drop (15 * (text.length / 16)) := by
  rw [idealChunks_eq, List.getD_eq_getElem?_getD, List.getElem?_append_right (by simp)]
  simp

theorem substr_length (text : Str) (pos len : Nat) (h : pos + len ≤ text.length) :
    (substr text pos len).length = len := by
  simp only [substr, List.length_take, List.length_drop]; omega


/-! ## The split in `int` arithmetic -/

theorem intOfSize_small (n : Nat) (h : n < 2 ^ 31) : intOfSize n = (n : Int) := by
  have h31 : (2 : Nat) ^ 31 = 2147483648 := by norm_num
  have h32 : (2 : Nat) ^ 32 = 4294967296 := by norm_num
  rw [h31] at h
  unfold intOfSize
  have hm : n % 2 ^ 32 = n := Nat.mod_eq_of_lt (by rw [h32]; omega)
  rw [hm, if_pos (by rw [h31]; exact h)]

theorem sizeOfInt_natCast (n : Nat) (h : n < 2 ^ 64) : sizeOfInt (n : Int) = n := by
  unfold sizeOfInt
  norm_num at h ⊢
  omega

theorem mulInt_natCast (a b : Nat) (h : a * b < 2 ^ 31) :
    mulInt (a : Int) (b : Int) = .ok ((a * b : Nat) : Int) := by
  unfold mulInt
  have h1 : ((a : Int) * (b : Int)) = ((a * b : Nat) : Int) := by push_cast; rfl
  rw [h1]
  have h2 : -2 ^ 31 ≤ ((a * b : Nat) : Int) ∧ ((a * b : Nat) : Int) < 2 ^ 31 := by
    constructor
    · have : (0 : Int) ≤ ((a * b : Nat) : Int) := Int.ofNat_nonneg _
      norm_num
      omega
    · exact_mod_cast h
  rw [if_pos h2]

theorem mulInt_overflow (a b : Nat) (h : 2 ^ 31 ≤ a * b) :
    mulInt (a : Int) (b : Int) = .error .intOverflow := by
  unfold mulInt
  have h1 : ((a : Int) * (b : Int)) = ((a * b : Nat) : Int) := by push_cast; rfl
  rw [h1]
  have h2 : ¬ (-2 ^ 31 ≤ ((a * b : Nat) : Int) ∧ ((a * b : Nat) : Int) < 2 ^ 31) := by
    rintro ⟨_, h3⟩
    have : a * b < 2 ^ 31 := by exact_mod_cast h3
    omega
  rw [if_neg h2]

/-- While no product overflows and no position lies behind the text, the loop
pushes the pieces of the exact split. -/
theorem splitLoop_ok (text : Str) (n : Nat) (hn : n < 2 ^ 31) (l : List Nat)
    (h : ∀ i ∈ l, i * n < 2 ^ 31 ∧ i * n ≤ text.length) :
    splitLoop text (n : Int) l = .ok (l.map (fun i => substr text (i * n) n)) := by
  induction l with
  | nil => rfl
  | cons i rest ih =>
    have hi := h i (by simp)
    have h64 : (2 : Nat) ^ 31 < 2 ^ 64 := by norm_num
    rw [splitLoop, mulInt_natCast i n hi.1]
    simp only []
    rw [sizeOfInt_natCast _ (by omega), sizeOfInt_natCast _ (by omega)]
    unfold substrAt
    rw [if_pos hi.2]
    simp only []
    rw [ih (fun j hj => h j (by simp [hj]))]
    rfl

theorem splitLoop_length (text : Str) (c : Int) (l : List Nat) :
    ∀ chunks, splitLoop text c l = .ok chunks → chunks.length = l.length := by
  induction l with
  | nil => intro chunks h; rw [splitLoop] at h; cases h; rfl
  | cons i rest ih =>
    intro chunks h
    rw [splitLoop] at h
    cases h1 : mulInt (i : Int) c with
    | error e => rw [h1] at h; cases h
    | ok pos =>
      rw [h1] at h
      simp only [] at h
      cases h2 : substrAt text (sizeOfInt pos) (sizeOfInt c) with
      | error e => rw [h2] at h; cases h
      | ok chunk =>
        rw [h2] at h
        simp only [] at h
        cases h3 : splitLoop text c rest with
        | error e => rw [h3] at h; cases h
        | ok cs =>
          rw [h3] at h
          cases h
          simp [ih cs h3]

/-- Every split that succeeds has 16 chunks. -/
theorem splitChunks_length (text : Str) (chunks : List Str) (h : splitChunks text = .ok chunks) :
    chunks.length = 16 := by
  unfold splitChunks at h
  simp only [] at h
  generalize intOfSize (text.length / 16) = c at h
  generalize hr : List.range 16 = r at h
  have hrl : r.length = 16 := by rw [← hr, List.length_range]
  cases h1 : splitLoop text c r with
  | error e => rw [h1] at h; cases h
  | ok cs =>
    have hl := splitLoop_length _ _ _ cs h1
    rw [hrl] at hl
    rw [h1] at h
    simp only [] at h
    split at h
    · cases h2 : mulInt ((16 : Nat) : Int) c with
      | error e => rw [h2] at h; cases h
      | ok pos =>
        rw [h2] at h
        simp only [] at h
        cases h3 : substrFrom text (sizeOfInt pos) with
        | error e => rw [h3] at h; cases h
        | ok tail =>
          rw [h3] at h
          cases h
          rw [appendToBack_length, hl]
    · cases h
      exact hl

/-- Below 2 GiB the split succeeds and is the exact one. -/
theorem splitChunks_ok (text : Str) (h : text.length < 2 ^ 31) :
    splitChunks text = .ok (idealChunks text) := by
  have h31 : (2 : Nat) ^ 31 = 2147483648 := by norm_num
  have h64 : (2 : Nat) ^ 64 = 18446744073709551616 := by norm_num
  rw [h31] at h
  have hn : text.length / 16 < 2 ^ 31 := by rw [h31]; omega
  have hloop := splitLoop_ok text (text.length / 16) hn (List.range 16) (by
    intro i hi
    rw [List.mem_range] at hi
    have : i * (text.length / 16) ≤ 15 * (text.length / 16) := Nat.mul_le_mul_right _ (by omega)
    rw [h31]
    constructor <;> omega)
  unfold splitChunks idealChunks
  simp only []
  rw [intOfSize_small _ hn, hloop]
  simp only []
  split
  · rw [mulInt_natCast 16 (text.length / 16) (by rw [h31]; omega)]
    simp only []
    rw [sizeOfInt_natCast (16 * (text.length / 16)) (by rw [h64]; omega)]
    unfold substrFrom
    rw [if_pos (by omega)]
  · rfl

/-- Between `2^31 + 1` and `2^31 + 15` bytes the loop still succeeds, and the
product `num_chunks * chunk_size = 2^31` overflows. -/
theorem splitChunks_overflow (text : Str) (h1 : 2 ^ 31 < text.length)
    (h2 : text.length < 2 ^ 31 + 16) : splitChunks text = .error .intOverflow := by
  have h31 : (2 : Nat) ^ 31 = 2147483648 := by norm_num
  rw [h31] at h1 h2
  have hq : text.length / 16 = 134217728 := by omega
  have hn : text.length / 16 < 2 ^ 31 := by rw [h31]; omega
  have hloop := splitLoop_ok text (text.length / 16) hn (List.range 16) (by
    intro i hi
    rw [List.mem_range] at hi
    have : i * (text.length / 16) ≤ 15 * (text.length / 16) := Nat.mul_le_mul_right _ (by omega)
    rw [h31]
    constructor <;> omega)
  have hmod : text.length % 16 ≠ 0 := by omega
  unfold splitChunks
  simp only []
  rw [intOfSize_small _ hn, hloop]
  simp only [hmod, ne_eq, not_false_eq_true, if_true]
  rw [mulInt_overflow 16 (text.length / 16) (by rw [h31]; omega)]

theorem overTwoGiB_length : overTwoGiB.length = 2 ^ 31 + 1 := by
  rw [overTwoGiB, List.length_replicate]

theorem splitChunks_overTwoGiB : splitChunks overTwoGiB = .error .intOverflow :=
  splitChunks_overflow overTwoGiB (by rw [overTwoGiB_length]; omega)
    (by rw [overTwoGiB_length]; omega)

/-! ## Artifact names -/

theorem toString_inj16 : ∀ i, i < 16 → ∀ j, j < 16 → toString i = toString j → i = j := by
  decide

theorem artifactPath_inj (dir : String) (i j : Nat) (hi : i < 16) (hj : j < 16)
    (h : artifactPath dir i = artifactPath dir j) : i = j := by
  unfold artifactPath at h
  have h1 := congrArg String.data h
  simp only [String.data_append] at h1
  have h2 := List.append_cancel_right h1
  have h3 := List.append_cancel_left h2
  exact toString_inj16 i hi j hj (String.ext h3)

theorem artifactPath_ne (dir : String) (i j : Nat) (hi : i < 16) (hj : j < 16) (h : i ≠ j) :
    artifactPath dir i ≠ artifactPath dir j :=
  fun e => h (artifactPath_inj dir i j hi hj e)

/-! ## Compression threads -/

theorem threading_compression_read (chunks : List Str) (dir : String) :
    ∀ (start : Nat) (fs : FS) (k : Nat), start + chunks.length ≤ 16 → k < 16 →
      threading_compression chunks dir start fs (artifactPath dir k) =
        if start ≤ k ∧ k < start + chunks.length then
          some (writeCodes (compress (chunks.getD (k - start) [])))
        else fs (artifactPath dir k) := by
  induction chunks with
  | nil =>
    intro start fs k _ _
    have : ¬ (start ≤ k ∧ k < start + ([] : List Str).length) := by simp
    rw [if_neg this]; rfl
  | cons c rest ih =>
    intro start fs k hb hk
    simp only [List.length_cons] at hb
    rw [threading_compression, ih (start + 1) _ k (by omega) hk]
    by_cases h1 : start + 1 ≤ k ∧ k < start + 1 + rest.length
    · have h2 : start ≤ k ∧ k < start + (c :: rest).length := by
        simp only [List.length_cons]; omega
      rw [if_pos h1, if_pos h2]
      have : k - start = (k - (start + 1)) + 1 := by omega
      rw [this, List.getD_cons_succ]
    · rw [if_neg h1]
      by_cases h3 : k = start
      · subst h3
        have h2 : k ≤ k ∧ k < k + (c :: rest).length := by simp
        rw [if_pos h2]
        simp [compress_chunk, save_compressed_data, FS.write]
      · have h2 : ¬ (start ≤ k ∧ k < start + (c :: rest).length) := by
          simp only [List.length_cons]; omega
        rw [if_neg h2]
        have hne := artifactPath_ne dir k start hk (by omega) h3
        simp [compress_chunk, save_compressed_data, FS.write, hne]

/-- A file that is no artifact of the directory is left as it is. -/
theorem threading_compression_other (chunks : List Str) (dir : String) (q : String) :
    ∀ (start : Nat) (fs : FS), (∀ k, q ≠ artifactPath dir k) →
      threading_compression chunks dir start fs q = fs q := by
  induction chunks with
  | nil => intro start fs _; rfl
  | cons c rest ih =>
    intro start fs hq
    rw [threading_compression, ih (start + 1) _ hq]
    simp [compress_chunk, save_compressed_data, FS.write, hq start]

/-! ## Dispatch -/

theorem threadArgsFrom_length {α : Type} (items : List α) (cpt n start : Nat) :
    (threadArgsFrom items cpt n start).length = n := by
  induction n generalizing start with
  | zero => rfl
  | succ n ih => simp [threadArgsFrom, ih]

theorem threadArgsFrom_getElem? {α : Type} (items : List α) (cpt : Nat) :
    ∀ (n start i : Nat), i < n →
      (threadArgsFrom items cpt n start)[i]? =
        some ((items.drop (start + i * cpt)).take cpt, start + i * cpt) := by
  intro n
  induction n with
  | zero => intro start i hi; omega
  | succ n ih =>
    intro start i hi
    cases i with
    | zero => simp [threadArgsFrom]
    | succ i =>
      rw [threadArgsFrom, List.getElem?_cons_succ, ih (start + cpt) i (by omega)]
      have : start + cpt + i * cpt = start + (i + 1) * cpt := by rw [Nat.succ_mul]; omega
      rw [this]

theorem archive_fold_read (items : List Str) (dir : String) (cpt : Nat) :
    ∀ (n start : Nat) (fs : FS) (k : Nat), start + n * cpt ≤ 16 → items.length = 16 → k < 16 →
      (threadArgsFrom items cpt n start).foldl
          (fun fs1 a => threading_compression a.1 dir a.2 fs1) fs (artifactPath dir k) =
        if start ≤ k ∧ k < start + n * cpt then
          some (writeCodes (compress (items.getD k [])))
        else fs (artifactPath dir k) := by
  intro n
  induction n with
  | zero =>
    intro start fs k _ _ _
    have : ¬ (start ≤ k ∧ k < start + 0 * cpt) := by omega
    rw [if_neg this]; rfl
  | succ n ih =>
    intro start fs k hb hlen hk
    rw [Nat.succ_mul] at hb
    have hslice : ((items.drop start).take cpt).length = cpt := by
      rw [List.length_take, List.length_drop]; omega
    rw [threadArgsFrom, List.foldl_cons, ih (start + cpt) _ k (by omega) hlen hk]
    simp only []
    rw [threading_compression_read _ dir start fs k (by rw [hslice]; omega) hk, hslice]
    by_cases h1 : start + cpt ≤ k ∧ k < start + cpt + n * cpt
    · have h2 : start ≤ k ∧ k < start + (n + 1) * cpt := by rw [Nat.succ_mul]; omega
      rw [if_pos h1, if_pos h2]
    · rw [if_neg h1]
      by_cases h3 : start ≤ k ∧ k < start + cpt
      · have h2 : start ≤ k ∧ k < start + (n + 1) * cpt := by
          rw [Nat.succ_mul]
          have := Nat.zero_le (n * cpt)
          omega
        rw [if_pos h3, if_pos h2]
        congr 3
        rw [List.getD_eq_getElem?_getD, List.getD_eq_getElem?_getD, List.getElem?_take_of_lt (by omega),
          List.getElem?_drop]
        congr 2
        omega
      · have h2 : ¬ (start ≤ k ∧ k < start + (n + 1) * cpt) := by rw [Nat.succ_mul]; omega
        rw [if_neg h3, if_neg h2]

/-! ## Decompression threads -/

theorem getD_set (l : List Str) (i j : Nat) (a : Str) :
    (l.set i a).getD j [] = if i = j ∧ i < l.length then a else l.getD j [] := by
  rw [List.getD_eq_getElem?_getD, List.getD_eq_getElem?_getD, List.getElem?_set]
  by_cases h : i = j
  · subst h
    by_cases h2 : i < l.length
    · simp [h2]
    · simp [h2]
      rw [List.getElem?_eq_none (by omega)]
      rfl
  · simp [h]

theorem threading_decompression_ok (fs : FS) (res : Nat → Str) (files : List String) :
    ∀ (outputs : List Str) (start : Nat), start + files.length ≤ outputs.length →
      (∀ k, start ≤ k → k < start + files.length →
        decompress_chunk (files.getD (k - start) "") (outputs.getD k []) fs = .ok (res k)) →
      ∃ outs, threading_decompression fs files outputs start = .ok outs ∧
        outs.length = outputs.length ∧
        ∀ k, outs.getD k [] =
          if start ≤ k ∧ k < start + files.length then res k else outputs.getD k [] := by
  induction files with
  | nil =>
    intro outputs start _ _
    refine ⟨outputs, rfl, rfl, ?_⟩
    intro k
    have : ¬ (start ≤ k ∧ k < start + ([] : List String).length) := by simp
    rw [if_neg this]
  | cons f rest ih =>
    intro outputs start hb hres
    simp only [List.length_cons] at hb
    have h0 := hres start (le_refl _) (by simp)
    simp only [Nat.sub_self, List.getD_cons_zero] at h0
    obtain ⟨outs, e1, e2, e3⟩ := ih (outputs.set start (res start)) (start + 1)
      (by rw [List.length_set]; omega)
      (by
        intro k hk1 hk2
        have := hres k (by omega) (by simp only [List.length_cons]; omega)
        have hk : k - start = (k - (start + 1)) + 1 := by omega
        rw [hk, List.getD_cons_succ] at this
        rw [getD_set, if_neg (by omega)]
        exact this)
    refine ⟨outs, ?_, ?_, ?_⟩
    · rw [threading_decompression, h0]
      exact e1
    · rw [e2, List.length_set]
    · intro k
      rw [e3 k, getD_set]
      by_cases h1 : start + 1 ≤ k ∧ k < start + 1 + rest.length
      · have h2 : start ≤ k ∧ k < start + (f :: rest).length := by
          simp only [List.length_cons]; omega
        rw [if_pos h1, if_pos h2]
      · rw [if_neg h1]
        by_cases h3 : start = k
        · subst h3
          have h2 : start ≤ start ∧ start < start + (f :: rest).length := by simp
          rw [if_pos ⟨rfl, by omega⟩, if_pos h2]
        · have h2 : ¬ (start ≤ k ∧ k < start + (f :: rest).length) := by
            simp only [List.length_cons]; omega
          rw [if_neg (by tauto), if_neg h2]

theorem threading_decompression_sound (fs : FS) (files : List String) :
    ∀ (outputs : List Str) (start : Nat) (outs : List Str),
      start + files.length ≤ outputs.length →
      threading_decompression fs files outputs start = .ok outs →
      outs.length = outputs.length ∧
      ∀ k, (start ≤ k ∧ k < start + files.length →
          decompress_chunk (files.getD (k - start) "") (outputs.getD k []) fs =
            .ok (outs.getD k [])) ∧
        (¬ (start ≤ k ∧ k < start + files.length) → outs.getD k [] = outputs.getD k []) := by
  induction files with
  | nil =>
    intro outputs start outs _ h
    simp only [threading_decompression, Except.ok.injEq] at h
    subst h
    exact ⟨rfl, fun k => ⟨fun hk => by simp only [List.length_nil] at hk; omega, fun _ => rfl⟩⟩
  | cons f rest ih =>
    intro outputs start outs hb h
    simp only [List.length_cons] at hb
    rw [threading_decompression] at h
    cases hd : decompress_chunk f (outputs.getD start []) fs with
    | error e => rw [hd] at h; cases h
    | ok o =>
      rw [hd] at h
      simp only [] at h
      obtain ⟨e2, e3⟩ := ih (outputs.set start o) (start + 1) outs
        (by rw [List.length_set]; omega) h
      refine ⟨by rw [e2, List.length_set], ?_⟩
      intro k
      constructor
      · intro hk
        simp only [List.length_cons] at hk
        by_cases h3 : start = k
        · subst h3
          have := (e3 start).2 (by omega)
          rw [getD_set, if_pos ⟨rfl, by omega⟩] at this
          rw [Nat.sub_self, List.getD_cons_zero, this]
          exact hd
        · have := (e3 k).1 (by omega)
          rw [getD_set, if_neg (by tauto)] at this
          have hk2 : k - start = (k - (start + 1)) + 1 := by omega
          rw [hk2, List.getD_cons_succ]
          exact this
      · intro hk
        simp only [List.length_cons] at hk
        have := (e3 k).2 (by omega)
        rw [getD_set, if_neg (by omega)] at this
        exact this

theorem runDecompressionThreads_ok (fs : FS) (res : Nat → Str) (files : List String) (cpt : Nat) :
    ∀ (n start : Nat) (outputs : List Str), start + n * cpt ≤ 16 → files.length = 16 →
      outputs.length = 16 →
      (∀ k, start ≤ k → k < start + n * cpt →
        decompress_chunk (files.getD k "") (outputs.getD k []) fs = .ok (res k)) →
      ∃ outs, runDecompressionThreads fs (threadArgsFrom files cpt n start) outputs = .ok outs ∧
        outs.length = 16 ∧
        ∀ k, outs.getD k [] =
          if start ≤ k ∧ k < start + n * cpt then res k else outputs.getD k [] := by
  intro n
  induction n with
  | zero =>
    intro start outputs _ _ hlen _
    refine ⟨outputs, rfl, hlen, ?_⟩
    intro k
    have : ¬ (start ≤ k ∧ k < start + 0 * cpt) := by omega
    rw [if_neg this]
  | succ n ih =>
    intro start outputs hb hfl hlen hres
    rw [Nat.succ_mul] at hb hres
    have hslice : ((files.drop start).take cpt).length = cpt := by
      rw [List.length_take, List.length_drop]; omega
    have hget : ∀ k, start ≤ k → k < start + cpt →
        ((files.drop start).take cpt).getD (k - start) "" = files.getD k "" := by
      intro k h1 h2
      rw [List.getD_eq_getElem?_getD, List.getD_eq_getElem?_getD,
        List.getElem?_take_of_lt (by omega), List.getElem?_drop]
      congr 2
      omega
    obtain ⟨o1, a1, a2, a3⟩ := threading_decompression_ok fs res ((files.drop start).take cpt)
      outputs start (by rw [hslice]; omega)
      (by
        intro k h1 h2
        rw [hslice] at h2
        rw [hget k h1 h2]
        exact hres k h1 (by have := Nat.zero_le (n * cpt); omega))
    simp only [hslice] at a3
    obtain ⟨outs, b1, b2, b3⟩ := ih (start + cpt) o1 (by omega) hfl (by rw [a2, hlen])
      (by
        intro k h1 h2
        rw [a3 k, if_neg (by omega)]
        exact hres k (by omega) (by omega))
    refine ⟨outs, ?_, b2, ?_⟩
    · rw [threadArgsFrom, runDecompressionThreads]
      simp only []
      rw [a1]
      exact b1
    · intro k
      rw [b3 k, a3 k, Nat.succ_mul]
      by_cases h1 : start + cpt ≤ k ∧ k < start + cpt + n * cpt
      · rw [if_pos h1, if_pos (by omega)]
      · rw [if_neg h1]
        by_cases h3 : start ≤ k ∧ k < start + cpt
        · rw [if_pos h3, if_pos (by have := Nat.zero_le (n * cpt); omega)]
        · rw [if_neg h3, if_neg (by omega)]

/-! ## Whole pipeline -/

theorem compress_eq_nil (s : Str) (h : compress s = []) : s = [] := by
  by_contra hne
  have := decompress_compress s hne
  rw [h] at this
  simp [decompress] at this

theorem decompress_chunk_artifact (chunk : Str) (path : String) (fs : FS)
    (hfile : fs path = some (writeCodes (compress chunk))) (hlen : chunk.length + 256 ≤ 2 ^ 31) :
    decompress_chunk path [] fs = .ok chunk := by
  have hread : read_compressed_data path fs = compress chunk := by
    unfold read_compressed_data
    rw [hfile]
    exact readCodes_writeCodes _ (compress_int32 chunk hlen)
  unfold decompress_chunk
  simp only [hread]
  by_cases hc : compress chunk = []
  · rw [if_pos hc, compress_eq_nil chunk hc]
  · rw [if_neg hc]
    apply decompress_compress
    intro he
    rw [he] at hc
    exact hc compress_nil

theorem idealChunks_getD_length (text : Str) (k : Nat) :
    ((idealChunks text).getD k []).length ≤ text.length / 16 + 15 := by
  have hdm := Nat.div_add_mod text.length 16
  have hmod := Nat.mod_lt text.length (show 16 > 0 by omega)
  by_cases h1 : k < 15
  · rw [idealChunks_getD_lt text k h1]
    simp only [substr, List.length_take, List.length_drop]
    omega
  · by_cases h2 : k = 15
    · subst h2
      rw [idealChunks_getD_last, List.length_drop]
      omega
    · rw [List.getD_eq_getElem?_getD, List.getElem?_eq_none (by rw [idealChunks_length]; omega)]
      simp

theorem archiveText_ok (text : Str) (chunks : List Str) (W : Nat) (fs : FS)
    (hs : splitChunks text = .ok chunks) :
    archiveText text W fs =
      (threadArgs chunks W).foldl (fun fs1 a => threading_compression a.1 "output" a.2 fs1) fs := by
  unfold archiveText
  simp only []
  rw [hs]

theorem archiveText_error (text : Str) (e : ArchiveError) (W : Nat) (fs : FS)
    (hs : splitChunks text = .error e) : archiveText text W fs = fs := by
  unfold archiveText
  simp only []
  rw [hs]

theorem archiveText_read (text : Str) (chunks : List Str) (W : Nat) (fs : FS) (k : Nat)
    (hs : splitChunks text = .ok chunks) (hW : W * (16 / W) = 16) (hk : k < 16) :
    archiveText text W fs (artifactPath "output" k) =
      some (writeCodes (compress (chunks.getD k []))) := by
  rw [archiveText_ok text chunks W fs hs]
  unfold threadArgs
  rw [archive_fold_read chunks "output" (16 / W) W 0 fs k (by omega)
    (splitChunks_length text chunks hs) hk, if_pos (by omega)]

theorem files_getD (dir : String) (k : Nat) (hk : k < 16) :
    ((List.range 16).map (artifactPath dir)).getD k "" = artifactPath dir k := by
  rw [List.getD_eq_getElem?_getD, List.getElem?_map, List.getElem?_range hk]
  rfl

theorem replicate_getD (k : Nat) : (List.replicate 16 ([] : Str)).getD k [] = [] := by
  rw [List.getD_eq_getElem?_getD, List.getElem?_replicate]
  split <;> rfl

theorem list_eq_of_getD (a b : List Str) (ha : a.length = 16) (hb : b.length = 16)
    (h : ∀ k, k < 16 → a.getD k [] = b.getD k []) : a = b := by
  apply List.ext_getElem (by rw [ha, hb])
  intro k h1 h2
  have := h k (by omega)
  rw [List.getD_eq_getElem?_getD, List.getD_eq_getElem?_getD, List.getElem?_eq_getElem h1,
    List.getElem?_eq_getElem h2] at this
  exact this

theorem decompressText_archiveText (text : Str) (W : Nat) (fs : FS)
    (hW : W * (16 / W) = 16) (hlen : text.length < 2 ^ 31) :
    decompressText "output" W (archiveText text W fs) = .ok text := by
  have hs := splitChunks_ok text hlen
  obtain ⟨outs, e1, e2, e3⟩ := runDecompressionThreads_ok (archiveText text W fs)
    (fun k => (idealChunks text).getD k []) ((List.range 16).map (artifactPath "output"))
    (16 / W) W 0 (List.replicate 16 []) (by omega) (by simp) (by simp)
    (by
      intro k _ hk
      have hk16 : k < 16 := by omega
      rw [files_getD "output" k hk16, replicate_getD]
      apply decompress_chunk_artifact _ _ _ (archiveText_read text _ W fs k hs hW hk16)
      have := idealChunks_getD_length text k
      have h31 : (2 : Nat) ^ 31 = 2147483648 := by norm_num
      rw [h31] at hlen ⊢
      omega)
  have hout : outs = idealChunks text := by
    apply list_eq_of_getD outs _ e2 (idealChunks_length text)
    intro k hk
    rw [e3 k, if_pos (by omega)]
  unfold decompressText threadArgs
  simp only [e1]
  rw [hout, idealChunks_flatten]

theorem legal_mul (W : Nat) (hW : W = 1 ∨ W = 2 ∨ W = 4 ∨ W = 8 ∨ W = 16) :
    W * (16 / W) = 16 := by
  rcases hW with rfl | rfl | rfl | rfl | rfl <;> rfl

theorem slice_length {α : Type} (items : List α) (start cpt : Nat) (h : start + cpt ≤ items.length) :
    ((items.drop start).take cpt).length = cpt := by
  rw [List.length_take, List.length_drop]; omega

theorem legal_partition (W : Nat) (hW : W = 1 ∨ W = 2 ∨ W = 4 ∨ W = 8 ∨ W = 16) (k : Nat)
    (hk : k < 16) :
    ∃! i, i < W ∧ i * (16 / W) ≤ k ∧ k < (i + 1) * (16 / W) := by
  rcases hW with rfl | rfl | rfl | rfl | rfl
  · exact ⟨k / 16, by norm_num; omega, fun j hj => by norm_num at hj; omega⟩
  · exact ⟨k / 8, by norm_num; omega, fun j hj => by norm_num at hj; omega⟩
  · exact ⟨k / 4, by norm_num; omega, fun j hj => by norm_num at hj; omega⟩
  · exact ⟨k / 2, by norm_num; omega, fun j hj => by norm_num at hj; omega⟩
  · exact ⟨k, by norm_num; omega, fun j hj => by norm_num at hj; omega⟩

/-! ## Further facts on the encoder -/

theorem compressLoop_append (p q : Str) :
    compressLoop (p ++ q) = q.foldl compressStep (compressLoop p) := by
  unfold compressLoop
  rw [List.foldl_append]

theorem encOK_loop (text : Str) : EncOK (compressLoop text) :=
  encOK_init.foldl text

/-- The lookup `dictionary[current]` of a key that is present returns its code and
leaves the dictionary as it is. -/
theorem EncOK.lookup {st : EncState} (h : EncOK st) (hne : st.current ≠ []) :
    ∃ code, st.dictionary.find? st.current = some code ∧
      st.dictionary.index st.current 0 = (code, st.dictionary) := by
  cases hf : st.dictionary.find? st.current with
  | none => exact absurd hf (h.cur hne)
  | some code => exact ⟨code, rfl, Map.index_of_some _ _ _ _ hf⟩

theorem compressStep_current_ne (st : EncState) (c : Byte) : (compressStep st c).current ≠ [] := by
  simp only [compressStep]
  split_ifs <;> simp

theorem compressLoop_current_ne (text : Str) (h : text ≠ []) : (compressLoop text).current ≠ [] := by
  obtain ⟨p, c, rfl⟩ : ∃ p c, text = p ++ [c] :=
    ⟨text.dropLast, text.getLast h, (List.dropLast_append_getLast h).symm⟩
  rw [compressLoop_append]
  exact compressStep_current_ne _ c

theorem compress_length (text : Str) :
    (compress text).length =
      (compressLoop text).compressed_data.length + pending (compressLoop text).current :=
  compressFlush_count _ (encOK_loop text)

theorem compress_ne_nil (text : Str) (h : text ≠ []) : compress text ≠ [] := by
  intro he
  have h1 := compress_length text
  have h2 : pending (compressLoop text).current = 1 := by
    unfold pending; rw [if_neg (compressLoop_current_ne text h)]
  rw [he, h2] at h1
  simp at h1

theorem readCodes_eq_nil (bytes : Str) : readCodes bytes = [] ↔ bytes.length < 4 := by
  match bytes with
  | [] => simp [readCodes]
  | [_] => simp [readCodes]
  | [_, _] => simp [readCodes]
  | [_, _, _] => simp [readCodes]
  | _ :: _ :: _ :: _ :: _ => simp [readCodes]

theorem decompressStep_error (st : DecState) (code : Int) (e : DecodeError)
    (h : decompressStep st code = .error e) : e = .invalidData := by
  unfold decompressStep at h
  split at h
  · cases h
  · split at h
    · cases h
    · cases h; rfl

theorem decompressLoop_error (rest : List Int) : ∀ (st : DecState) (e : DecodeError),
    decompressLoop st rest = .error e → e = .invalidData := by
  induction rest with
  | nil => intro st e h; cases h
  | cons code rest ih =>
    intro st e h
    rw [decompressLoop] at h
    cases hs : decompressStep st code with
    | ok st1 => rw [hs] at h; exact ih st1 e h
    | error e1 =>
      rw [hs] at h
      cases h
      exact decompressStep_error st code e hs

theorem decompress_error (cs : List Int) (hne : cs ≠ []) (e : DecodeError)
    (h : decompress cs = .error e) : e = .invalidData := by
  cases cs with
  | nil => exact absurd rfl hne
  | cons c rest =>
    rw [decompress] at h
    cases hl : decompressLoop (decompressInit c) rest with
    | ok st => rw [hl] at h; cases h
    | error e1 =>
      rw [hl] at h
      cases h
      exact decompressLoop_error rest _ e hl

theorem decompress_chunk_error (input_file : String) (output : Str) (fs : FS) (e : DecodeError)
    (h : decompress_chunk input_file output fs = .error e) : e = .invalidData := by
  unfold decompress_chunk at h
  simp only [] at h
  split at h
  · cases h
  · rename_i hne
    exact decompress_error _ hne e h

/-! ## Codes of the encoder dictionary -/

theorem encBij_of_seed (D : Map Str Int) (hfind : ∀ s c, D.find? s = some c ↔ IsSingle s c)
    (hsize : D.size = 256) : EncBij D where
  inj := by
    intro s1 s2 c h1 h2
    obtain ⟨b1, rfl, e1⟩ := (hfind _ _).1 h1
    obtain ⟨b2, rfl, e2⟩ := (hfind _ _).1 h2
    have : b1 = b2 := by
      apply Fin.ext
      have := e1.symm.trans e2
      exact_mod_cast this
    rw [this]
  onto := by
    intro c
    rw [hsize]
    constructor
    · rintro ⟨s, hs⟩
      obtain ⟨b, _, rfl⟩ := (hfind _ _).1 hs
      have := b.isLt
      constructor <;> omega
    · rintro ⟨h0, h1⟩
      have hb : c.toNat < 256 := by omega
      refine ⟨[⟨c.toNat, hb⟩], (hfind _ _).2 ⟨⟨c.toNat, hb⟩, rfl, ?_⟩⟩
      exact (Int.toNat_of_nonneg h0).symm

theorem encBij_seed : EncBij encSeed := encBij_of_seed encSeed encSeed_find? encSeed_size

theorem EncBij.insert {D : Map Str Int} (h : EncBij D) (k : Str) (hk : D.find? k = none) :
    EncBij (D.assign k (D.size : Int)) := by
  have hsz : (D.assign k (D.size : Int)).size = D.size + 1 := Map.size_assign_of_none _ _ _ hk
  have hlt : ∀ s c, D.find? s = some c → c < (D.size : Int) :=
    fun s c hs => ((h.onto c).1 ⟨s, hs⟩).2
  constructor
  · intro s1 s2 c h1 h2
    rw [Map.find?_assign] at h1 h2
    by_cases e1 : k = s1
    · by_cases e2 : k = s2
      · rw [← e1, ← e2]
      · rw [if_pos e1] at h1
        rw [if_neg e2] at h2
        have := hlt s2 c h2
        have hc : (D.size : Int) = c := by simpa using h1
        omega
    · by_cases e2 : k = s2
      · rw [if_neg e1] at h1
        rw [if_pos e2] at h2
        have := hlt s1 c h1
        have hc : (D.size : Int) = c := by simpa using h2
        omega
      · rw [if_neg e1] at h1
        rw [if_neg e2] at h2
        exact h.inj s1 s2 c h1 h2
  · intro c
    rw [hsz]
    constructor
    · rintro ⟨s, hs⟩
      rw [Map.find?_assign] at hs
      by_cases e : k = s
      · rw [if_pos e] at hs
        have hc : (D.size : Int) = c := by simpa using hs
        push_cast; omega
      · rw [if_neg e] at hs
        have := (h.onto c).1 ⟨s, hs⟩
        push_cast; omega
    · rintro ⟨h0, h1⟩
      by_cases e : c = (D.size : Int)
      · exact ⟨k, by rw [Map.find?_assign, if_pos rfl, e]⟩
      · obtain ⟨s, hs⟩ := (h.onto c).2 ⟨h0, by push_cast at h1; omega⟩
        refine ⟨s, ?_⟩
        rw [Map.find?_assign]
        have : ¬ k = s := by
          intro e2
          rw [← e2, hk] at hs
          cases hs
        rw [if_neg this]
        exact hs

/-- What one iteration does to the dictionary: nothing on a hit, and on a miss the
new string is added at the end with the size as its code. -/
theorem compressStep_dictionary (st : EncState) (h : EncOK st) (c : Byte) :
    (st.dictionary.count (st.current ++ [c]) ≠ 0 →
      (compressStep st c).dictionary = st.dictionary) ∧
    (st.dictionary.count (st.current ++ [c]) = 0 →
      (compressStep st c).dictionary =
        st.dictionary ++ [(st.current ++ [c], (st.dictionary.size : Int))]) := by
  constructor
  · intro hc
    rw [Map.count_ne_zero_iff] at hc
    rw [compressStep_hit st c hc]
  · intro hc
    rw [Map.count_eq_zero_iff] at hc
    obtain ⟨code, h1, _⟩ := h.lookup (h.cur_ne_of_miss c hc)
    rw [compressStep_miss st c code hc h1]
    exact Map.assign_of_none _ _ _ hc

theorem EncBij.after_step {st : EncState} (h : EncBij st.dictionary) (hok : EncOK st) (c : Byte) :
    EncBij (compressStep st c).dictionary := by
  by_cases hc : st.dictionary.count (st.current ++ [c]) ≠ 0
  · rw [(compressStep_dictionary st hok c).1 hc]
    exact h
  · have hc0 : st.dictionary.count (st.current ++ [c]) = 0 := by omega
    have hn := (Map.count_eq_zero_iff _ _).1 hc0
    rw [(compressStep_dictionary st hok c).2 hc0, ← Map.assign_of_none _ _ _ hn]
    exact h.insert _ hn

theorem encBij_foldl (t : Str) : ∀ st : EncState, EncOK st → EncBij st.dictionary →
    EncBij (t.foldl compressStep st).dictionary := by
  induction t with
  | nil => intro st _ h; exact h
  | cons c t ih => intro st hok h; exact ih _ (hok.step c) (h.after_step hok c)

theorem encBij_foldl_mk (t : Str) (D : Map Str Int) (w : Str) (cd : List Int)
    (hok : EncOK { dictionary := D, current := w, compressed_data := cd }) (h : EncBij D) :
    EncBij (t.foldl compressStep
      { dictionary := D, current := w, compressed_data := cd }).dictionary :=
  encBij_foldl t { dictionary := D, current := w, compressed_data := cd } hok h

theorem encBij_loop (text : Str) : EncBij (compressLoop text).dictionary := by
  unfold compressLoop
  exact encBij_foldl_mk text encSeed [] [] encOK_init encBij_seed

theorem compressFlush_dictionary (st : EncState) (h : EncOK st) :
    (compressFlush st).dictionary = st.dictionary := by
  by_cases hne : st.current = []
  · unfold compressFlush
    simp only [hne, ne_eq, not_true_eq_false, if_false]
  · obtain ⟨code, _, h2⟩ := h.lookup hne
    unfold compressFlush
    simp only [hne, ne_eq, not_false_eq_true, if_true, h2]

theorem compressLoop_nil_size : (compressLoop []).dictionary.size = 256 := by
  simp only [compressLoop, List.foldl_nil]
  exact encSeed_size

/-! ## Exact failure condition of the decoder -/

/-- A code in `0 .. size` is accepted: the dictionary grows by one entry and, when
the code is the size itself, the string is the previous one plus its first
byte. -/
theorem decompressStep_accept (E : Map Int Str) (prev text : Str) (code : Int) (h : DecOK E)
    (h0 : 0 ≤ code) (h1 : code ≤ (E.size : Int)) :
    ∃ str, decompressStep { dictionary := E, prev_str := prev, decompressed_text := text } code =
        .ok { dictionary := E.assign (E.size : Int) (prev ++ [front str]), prev_str := str,
              decompressed_text := text ++ str } ∧
      (code = (E.size : Int) → str = prev ++ [front prev]) ∧
      (code < (E.size : Int) → E.find? code = some str) := by
  by_cases hlt : code < (E.size : Int)
  · have hin := (h.keys code).2 ⟨h0, hlt⟩
    cases hf : E.find? code with
    | none => exact absurd hf hin
    | some str =>
      have hc : E.count code ≠ 0 := by rw [Map.count_ne_zero_iff, hf]; simp
      refine ⟨str, ?_, fun e => by omega, fun _ => rfl⟩
      simp only [decompressStep, hc, ne_eq, not_false_eq_true, if_true,
        Map.index_of_some _ _ _ _ hf]
  · have he : code = (E.size : Int) := by omega
    subst he
    have hc : ¬ E.count (E.size : Int) ≠ 0 := by
      rw [Map.count_ne_zero_iff, h.next_free]; simp
    refine ⟨prev ++ [front prev], ?_, fun _ => rfl, fun e => absurd e hlt⟩
    simp only [decompressStep, hc, if_false, if_true]

/-- A negative code and a code above the size raise the error. -/
theorem decompressStep_reject (E : Map Int Str) (prev text : Str) (code : Int) (h : DecOK E)
    (hbad : code < 0 ∨ code > (E.size : Int)) :
    decompressStep { dictionary := E, prev_str := prev, decompressed_text := text } code =
      .error .invalidData := by
  have hnot : E.find? code = none := by
    by_contra hc
    have := (h.keys code).1 hc
    omega
  have hc : ¬ E.count code ≠ 0 := by rw [Map.count_ne_zero_iff, hnot]; simp
  have hne : ¬ code = (E.size : Int) := by omega
  simp only [decompressStep, hc, if_false, hne]

theorem decompressLoop_raises_iff (rest : List Int) :
    ∀ (E : Map Int Str) (prev text : Str), DecOK E →
      (decompressLoop { dictionary := E, prev_str := prev, decompressed_text := text } rest =
          .error .invalidData ↔
        ∃ j, j < rest.length ∧
          (rest.getD j 0 < 0 ∨ rest.getD j 0 > (E.size : Int) + (j : Int))) := by
  induction rest with
  | nil =>
    intro E prev text _
    constructor
    · intro h; cases h
    · rintro ⟨j, hj, _⟩; simp at hj
  | cons code rest ih =>
    intro E prev text h
    by_cases hbad : code < 0 ∨ code > (E.size : Int)
    · constructor
      · intro _
        exact ⟨0, by simp, by simpa using hbad⟩
      · intro _
        rw [decompressLoop, decompressStep_reject E prev text code h hbad]
    · obtain ⟨str, hstep, _, _⟩ := decompressStep_accept E prev text code h (by omega) (by omega)
      have hsz : (E.assign (E.size : Int) (prev ++ [front str])).size = E.size + 1 :=
        Map.size_assign_of_none _ _ _ h.next_free
      rw [decompressLoop, hstep]
      simp only []
      rw [ih _ str (text ++ str) (h.assign _), hsz]
      constructor
      · rintro ⟨j, hj, hb⟩
        refine ⟨j + 1, by simpa using hj, ?_⟩
        rw [List.getD_cons_succ]
        push_cast at hb ⊢
        omega
      · rintro ⟨j, hj, hb⟩
        cases j with
        | zero =>
          rw [List.getD_cons_zero] at hb
          exact absurd (by simpa using hb) hbad
        | succ j =>
          refine ⟨j, by simpa using hj, ?_⟩
          rw [List.getD_cons_succ] at hb
          push_cast at hb ⊢
          omega

/-- The decoder state after a run of accepted codes: the dictionary is in good
order and has grown by one entry per code. -/
theorem decompressLoop_state (pre : List Int) :
    ∀ (E : Map Int Str) (prev text : Str) (st : DecState), DecOK E →
      decompressLoop { dictionary := E, prev_str := prev, decompressed_text := text } pre =
        .ok st →
      DecOK st.dictionary ∧ st.dictionary.size = E.size + pre.length := by
  induction pre with
  | nil =>
    intro E prev text st h hl
    rw [decompressLoop] at hl
    cases hl
    exact ⟨h, rfl⟩
  | cons code pre ih =>
    intro E prev text st h hl
    by_cases hbad : code < 0 ∨ code > (E.size : Int)
    · rw [decompressLoop, decompressStep_reject E prev text code h hbad] at hl
      cases hl
    · obtain ⟨str, hstep, _, _⟩ := decompressStep_accept E prev text code h (by omega) (by omega)
      have hsz : (E.assign (E.size : Int) (prev ++ [front str])).size = E.size + 1 :=
        Map.size_assign_of_none _ _ _ h.next_free
      rw [decompressLoop, hstep] at hl
      simp only [] at hl
      obtain ⟨a, b⟩ := ih _ str (text ++ str) st (h.assign _) hl
      refine ⟨a, ?_⟩
      rw [b, hsz, List.length_cons]
      omega

/-! ## Final dictionaries of encoder and decoder -/

/-- Once the decoder has added its pending entry, its dictionary is the inverse of
the encoder dictionary. -/
theorem Sync.inverse {D : Map Str Int} {w : Str} {E : Map Int Str} {prev : Str}
    (h : Sync D w E prev) (s : Str) (c : Int) :
    D.find? s = some c ↔ (E.assign (E.size : Int) (prev ++ [front w])).find? c = some s := by
  rw [h.inv s c, Map.find?_assign]
  by_cases he : (E.size : Int) = c
  · subst he
    rw [if_pos rfl, h.fresh_key]
    constructor
    · rintro (h1 | ⟨h1, _⟩)
      · cases h1
      · rw [h1]
    · intro h1
      exact Or.inr ⟨by simpa using h1.symm, rfl⟩
  · rw [if_neg he]
    constructor
    · rintro (h1 | ⟨_, h1⟩)
      · exact h1
      · exact absurd h1.symm he
    · intro h1
      exact Or.inl h1

theorem compressFlush_dictionary_some (st : EncState) (code : Int)
    (hf : st.dictionary.find? st.current = some code) :
    (compressFlush st).dictionary = st.dictionary := by
  unfold compressFlush
  split
  · simp only [Map.index_of_some _ _ _ _ hf]
  · rfl

theorem lockstep_dict (t : Str) : ∀ (st : EncState) (E : Map Int Str) (prev text : Str),
    Sync st.dictionary st.current E prev →
    ∃ (new : List Int) (ds : DecState),
      (compressFlush (t.foldl compressStep st)).compressed_data = st.compressed_data ++ new ∧
      decompressLoop { dictionary := E, prev_str := prev, decompressed_text := text } new = .ok ds ∧
      (∀ s c, (compressFlush (t.foldl compressStep st)).dictionary.find? s = some c ↔
        ds.dictionary.find? c = some s) ∧
      (compressFlush (t.foldl compressStep st)).dictionary.size = ds.dictionary.size ∧
      ds.dictionary.size = E.size + new.length := by
  induction t with
  | nil =>
    intro st E prev text h
    cases hf : st.dictionary.find? st.current with
    | none => exact absurd hf h.cur_in
    | some code =>
      have hsz : (E.assign (E.size : Int) (prev ++ [front st.current])).size = E.size + 1 :=
        Map.size_assign_of_none _ _ _ h.fresh_key
      refine ⟨[code], DecState.mk (E.assign (E.size : Int) (prev ++ [front st.current]))
        st.current (text ++ st.current), ?_, ?_, ?_, ?_, ?_⟩
      · rw [List.foldl_nil, compressFlush_some st code h.cur_ne hf]
      · simp only [decompressLoop, h.decode code hf text]
      · intro s c
        rw [List.foldl_nil, compressFlush_dictionary_some st code hf]
        exact h.inverse s c
      · rw [List.foldl_nil, compressFlush_dictionary_some st code hf, h.size, hsz]
      · rw [hsz]; rfl
  | cons c t ih =>
    intro st E prev text h
    rw [List.foldl_cons]
    cases hn : st.dictionary.find? (st.current ++ [c]) with
    | some v =>
      have hin : st.dictionary.find? (st.current ++ [c]) ≠ none := by rw [hn]; simp
      obtain ⟨new, ds, h1, h2, h3, h4, h5⟩ :=
        ih { st with current := st.current ++ [c] } E prev text (h.hit c hin)
      rw [compressStep_hit st c hin]
      exact ⟨new, ds, h1, h2, h3, h4, h5⟩
    | none =>
      cases hf : st.dictionary.find? st.current with
      | none => exact absurd hf h.cur_in
      | some code =>
        have hsz : (E.assign (E.size : Int) (prev ++ [front st.current])).size = E.size + 1 :=
          Map.size_assign_of_none _ _ _ h.fresh_key
        obtain ⟨new, ds, h1, h2, h3, h4, h5⟩ := ih
          { dictionary := st.dictionary.assign (st.current ++ [c]) (st.dictionary.size : Int),
            current := [c], compressed_data := st.compressed_data ++ [code] }
          (E.assign (E.size : Int) (prev ++ [front st.current])) st.current
          (text ++ st.current) (h.miss c hn)
        rw [compressStep_miss st c code hn hf]
        refine ⟨code :: new, ds, ?_, ?_, h3, h4, ?_⟩
        · rw [h1]; simp
        · simp only [decompressLoop, h.decode code hf text]
          exact h2
        · rw [h5, hsz, List.length_cons]; omega

theorem lockstep_dict_mk (t : Str) (D : Map Str Int) (w : Str) (cd : List Int) (E : Map Int Str)
    (prev text : Str) (h : Sync D w E prev) :
    ∃ (new : List Int) (ds : DecState),
      (compressFlush (t.foldl compressStep
        { dictionary := D, current := w, compressed_data := cd })).compressed_data = cd ++ new ∧
      decompressLoop { dictionary := E, prev_str := prev, decompressed_text := text } new = .ok ds ∧
      (∀ s c, (compressFlush (t.foldl compressStep
        { dictionary := D, current := w, compressed_data := cd })).dictionary.find? s = some c ↔
        ds.dictionary.find? c = some s) ∧
      (compressFlush (t.foldl compressStep
        { dictionary := D, current := w, compressed_data := cd })).dictionary.size =
          ds.dictionary.size ∧
      ds.dictionary.size = E.size + new.length :=
  lockstep_dict t { dictionary := D, current := w, compressed_data := cd } E prev text h

theorem compressFlush_dictionary_mk (D : Map Str Int) (w : Str) (cd : List Int) (code : Int)
    (hf : D.find? w = some code) :
    (compressFlush { dictionary := D, current := w, compressed_data := cd }).dictionary = D :=
  compressFlush_dictionary_some { dictionary := D, current := w, compressed_data := cd } code hf

/-! ## Artifacts and worker counts -/

theorem archive_read (input_file : String) (text : Str) (chunks : List Str) (W : Nat) (fs : FS)
    (k : Nat) (hfile : fs input_file = some text) (hs : splitChunks text = .ok chunks)
    (hW : W = 1 ∨ W = 2 ∨ W = 4 ∨ W = 8 ∨ W = 16) (hk : k < 16) :
    archive input_file W fs (artifactPath "output" k) =
      some (writeCodes (compress (chunks.getD k []))) := by
  unfold archive
  rw [hfile]
  exact archiveText_read text chunks W fs k hs (legal_mul W hW) hk

/-- When the split fails no artifact is written. -/
theorem archive_split_error (input_file : String) (text : Str) (e : ArchiveError) (W : Nat)
    (fs : FS) (hfile : fs input_file = some text) (hs : splitChunks text = .error e) :
    archive input_file W fs = fs := by
  unfold archive
  rw [hfile]
  exact archiveText_error text e W fs hs

theorem archive_missing (input_file : String) (W : Nat) (fs : FS) (hfile : fs input_file = none) :
    archive input_file W fs = fs := by
  unfold archive
  rw [hfile]

/-- Two legal worker counts leave the same bytes in each of the 16 artifacts. -/
theorem archive_same_files (input_file : String) (W1 W2 : Nat) (fs : FS)
    (h1 : W1 = 1 ∨ W1 = 2 ∨ W1 = 4 ∨ W1 = 8 ∨ W1 = 16)
    (h2 : W2 = 1 ∨ W2 = 2 ∨ W2 = 4 ∨ W2 = 8 ∨ W2 = 16) (k : Nat) (hk : k < 16) :
    archive input_file W1 fs (artifactPath "output" k) =
      archive input_file W2 fs (artifactPath "output" k) := by
  cases hf : fs input_file with
  | none => rw [archive_missing _ _ _ hf, archive_missing _ _ _ hf]
  | some text =>
    cases hs : splitChunks text with
    | error e => rw [archive_split_error _ text e W1 fs hf hs, archive_split_error _ text e W2 fs hf hs]
    | ok chunks =>
      rw [archive_read _ text chunks W1 fs k hf hs h1 hk, archive_read _ text chunks W2 fs k hf hs h2 hk]

theorem read_compressed_data_congr (path : String) (fs1 fs2 : FS) (h : fs1 path = fs2 path) :
    read_compressed_data path fs1 = read_compressed_data path fs2 := by
  unfold read_compressed_data
  rw [h]

theorem archive_same_codes (input_file : String) (W1 W2 : Nat) (fs : FS)
    (h1 : W1 = 1 ∨ W1 = 2 ∨ W1 = 4 ∨ W1 = 8 ∨ W1 = 16)
    (h2 : W2 = 1 ∨ W2 = 2 ∨ W2 = 4 ∨ W2 = 8 ∨ W2 = 16) :
    artifactCodes "output" (archive input_file W1 fs) =
      artifactCodes "output" (archive input_file W2 fs) := by
  unfold artifactCodes
  apply List.map_congr_left
  intro k hk
  rw [read_compressed_data_congr _ _ _
    (archive_same_files input_file W1 W2 fs h1 h2 k (List.mem_range.1 hk))]

/-! ## Missing and empty artifacts -/

theorem compress_chunk_nil (path : String) (fs : FS) : compress_chunk [] path fs path = some [] := by
  simp only [compress_chunk, save_compressed_data, FS.write, if_true, compress_nil, writeCodes]

theorem decompress_chunk_cerr_missing (path : String) (fs : FS) (h : fs path = none) :
    decompress_chunk_cerr path fs =
      ["Error: Unable to open input file!",
       "Error: Unable to read compressed data from file " ++ path] := by
  simp only [decompress_chunk_cerr, read_compressed_data_cerr, read_compressed_data, h, if_true,
    List.singleton_append]

theorem decompress_chunk_cerr_empty (path : String) (fs : FS) (h : fs path = some []) :
    decompress_chunk_cerr path fs =
      ["Error: Unable to read compressed data from file " ++ path] := by
  simp only [decompress_chunk_cerr, read_compressed_data_cerr, read_compressed_data, h, readCodes,
    if_true, List.nil_append]

/-! ## A chunk that raises -/

/-- Whether `decompress_chunk` raises does not depend on the slot it is given. -/
theorem decompress_chunk_error_slot (input_file : String) (o o1 : Str) (fs : FS)
    (e : DecodeError) (h : decompress_chunk input_file o fs = .error e) :
    decompress_chunk input_file o1 fs = .error e := by
  unfold decompress_chunk at h ⊢
  simp only [] at h ⊢
  by_cases hc : read_compressed_data input_file fs = []
  · rw [if_pos hc] at h; cases h
  · rw [if_neg hc] at h ⊢
    exact h

theorem threading_decompression_error (fs : FS) (files : List String) :
    ∀ (outputs : List Str) (start : Nat) (e : DecodeError),
      threading_decompression fs files outputs start = .error e → e = .invalidData := by
  induction files with
  | nil => intro outputs start e h; cases h
  | cons f rest ih =>
    intro outputs start e h
    rw [threading_decompression] at h
    cases hd : decompress_chunk f (outputs.getD start []) fs with
    | ok o => rw [hd] at h; exact ih _ _ e h
    | error e1 =>
      rw [hd] at h
      cases h
      exact decompress_chunk_error _ _ _ e hd

theorem runDecompressionThreads_error (fs : FS) (args : List (List String × Nat)) :
    ∀ (outputs : List Str) (e : DecodeError),
      runDecompressionThreads fs args outputs = .error e → e = .invalidData := by
  induction args with
  | nil => intro outputs e h; cases h
  | cons a rest ih =>
    intro outputs e h
    rw [runDecompressionThreads] at h
    cases hd : threading_decompression fs a.1 outputs a.2 with
    | ok o => rw [hd] at h; exact ih _ e h
    | error e1 =>
      rw [hd] at h
      cases h
      exact threading_decompression_error fs _ _ _ e hd

/-- When all threads return, every chunk of their ranges has been decoded without
an error. -/
theorem runDecompressionThreads_sound (fs : FS) (files : List String) (cpt : Nat) :
    ∀ (n start : Nat) (outputs outs : List Str), start + n * cpt ≤ 16 → files.length = 16 →
      outputs.length = 16 →
      runDecompressionThreads fs (threadArgsFrom files cpt n start) outputs = .ok outs →
      ∀ k, start ≤ k → k < start + n * cpt →
        ∃ o r, decompress_chunk (files.getD k "") o fs = .ok r := by
  intro n
  induction n with
  | zero => intro start outputs outs _ _ _ _ k h1 h2; omega
  | succ n ih =>
    intro start outputs outs hb hfl hlen hrun k h1 h2
    rw [Nat.succ_mul] at hb h2
    have hslice : ((files.drop start).take cpt).length = cpt :=
      slice_length files start cpt (by omega)
    rw [threadArgsFrom, runDecompressionThreads] at hrun
    simp only [] at hrun
    cases hd : threading_decompression fs ((files.drop start).take cpt) outputs start with
    | error e => rw [hd] at hrun; cases hrun
    | ok o1 =>
      rw [hd] at hrun
      simp only [] at hrun
      obtain ⟨a2, a3⟩ := threading_decompression_sound fs _ outputs start o1
        (by rw [hslice]; omega) hd
      by_cases hk : k < start + cpt
      · have := (a3 k).1 ⟨h1, by rw [hslice]; exact hk⟩
        have hget : ((files.drop start).take cpt).getD (k - start) "" = files.getD k "" := by
          rw [List.getD_eq_getElem?_getD, List.getD_eq_getElem?_getD,
            List.getElem?_take_of_lt (by omega), List.getElem?_drop]
          congr 2
          omega
        rw [hget] at this
        exact ⟨_, _, this⟩
      · exact ih (start + cpt) o1 outs (by omega) hfl (by rw [a2, hlen]) hrun k (by omega)
          (by omega)

/-- One chunk whose decoding raises makes the whole of `decompress_file` raise: no
text is assembled and `output.txt` is not written. -/
theorem decompressText_raises (dir : String) (W : Nat) (fs : FS) (k : Nat) (e : DecodeError)
    (hW : W * (16 / W) = 16) (hk : k < 16)
    (h : decompress_chunk (artifactPath dir k) [] fs = .error e) :
    decompressText dir W fs = .error .invalidData ∧
      decompress_file dir W fs = .error .invalidData := by
  have hrun : runDecompressionThreads fs
      (threadArgs ((List.range 16).map (artifactPath dir)) W) (List.replicate 16 []) =
        .error .invalidData := by
    cases hd : runDecompressionThreads fs
        (threadArgs ((List.range 16).map (artifactPath dir)) W) (List.replicate 16 []) with
    | error e1 =>
      rw [runDecompressionThreads_error fs _ _ e1 hd]
    | ok outs =>
      exfalso
      unfold threadArgs at hd
      obtain ⟨o, r, hr⟩ := runDecompressionThreads_sound fs _ (16 / W) W 0 _ outs (by omega)
        (by simp) (by simp) hd k (by omega) (by omega)
      rw [files_getD dir k hk] at hr
      have := decompress_chunk_error_slot _ [] o fs e h
      rw [this] at hr
      cases hr
  have htext : decompressText dir W fs = .error .invalidData := by
    unfold decompressText
    simp only [hrun]
  refine ⟨htext, ?_⟩
  unfold decompress_file
  rw [htext]

/-! ## A run with one corrupt artifact -/

theorem decompress_65_300 : decompress [65, 300] = .error .invalidData := by
  rw [decompress, decompressInit, decSeed_eq]
  decide!

theorem decompress_72_105 : decompress [72, 105] = .ok [72, 105] := by
  rw [decompress, decompressInit, decSeed_eq]
  decide!

theorem isInt32_small (cs : List Int) (h : ∀ c ∈ cs, 0 ≤ c ∧ c ≤ 1000) : ∀ c ∈ cs, IsInt32 c := by
  intro c hc
  have := h c hc
  unfold IsInt32
  constructor <;> omega

theorem corruptArtifacts_chunk3 :
    decompress_chunk (artifactPath "output" 3) [] corruptArtifacts = .error .invalidData := by
  have hread : read_compressed_data (artifactPath "output" 3) corruptArtifacts = [65, 300] := by
    unfold read_compressed_data corruptArtifacts
    simp only [if_true]
    exact readCodes_writeCodes _ (isInt32_small _ (by decide))
  unfold decompress_chunk
  simp only [hread]
  rw [if_neg (by simp)]
  exact decompress_65_300

theorem corruptArtifacts_other (j : Nat) (hj : j < 16) (hne : j ≠ 3) :
    decompress_chunk (artifactPath "output" j) [] corruptArtifacts = .ok [72, 105] := by
  have hp := artifactPath_ne "output" j 3 hj (by omega) hne
  have hread : read_compressed_data (artifactPath "output" j) corruptArtifacts = [72, 105] := by
    unfold read_compressed_data corruptArtifacts
    simp only [hp, if_false]
    exact readCodes_writeCodes _ (isInt32_small _ (by decide))
  unfold decompress_chunk
  simp only [hread]
  rw [if_neg (by simp)]
  exact decompress_72_105


/-! ## A text of `2^31 + 1` bytes -/

theorem artifactPath_ne_input (k : Nat) : artifactPath "output" k ≠ "in.txt" := by
  intro h
  unfold artifactPath at h
  have h1 := congrArg String.data h
  simp only [String.data_append] at h1
  have h2 := congrArg List.head? h1
  simp at h2

theorem overTwoGiBInput_artifact (k : Nat) : overTwoGiBInput (artifactPath "output" k) = none := by
  unfold overTwoGiBInput
  rw [if_neg (artifactPath_ne_input k)]

theorem archive_overTwoGiB (W : Nat) : archive "in.txt" W overTwoGiBInput = overTwoGiBInput :=
  archive_split_error "in.txt" overTwoGiB .intOverflow W overTwoGiBInput
    (by unfold overTwoGiBInput; rw [if_pos rfl]) splitChunks_overTwoGiB

theorem decompress_chunk_none (path : String) (output : Str) (fs : FS) (h : fs path = none) :
    decompress_chunk path output fs = .ok output := by
  unfold decompress_chunk read_compressed_data
  simp only [h, if_true]

/-- With none of the 16 artifacts in the directory every slot stays empty. -/
theorem decompressText_no_artifact (dir : String) (W : Nat) (fs : FS) (hW : W * (16 / W) = 16)
    (h : ∀ k, k < 16 → fs (artifactPath dir k) = none) : decompressText dir W fs = .ok [] := by
  obtain ⟨outs, e1, e2, e3⟩ := runDecompressionThreads_ok fs
    (fun _ => []) ((List.range 16).map (artifactPath dir))
    (16 / W) W 0 (List.replicate 16 []) (by omega) (by simp) (by simp)
    (by
      intro k _ hk
      have hk16 : k < 16 := by omega
      rw [files_getD dir k hk16, replicate_getD]
      exact decompress_chunk_none _ _ _ (h k hk16))
  have hout : outs = List.replicate 16 [] := by
    apply list_eq_of_getD outs _ e2 (by simp)
    intro k hk
    rw [e3 k, if_pos (by omega), replicate_getD]
  unfold decompressText threadArgs
  simp only [e1]
  rw [hout]
  rfl

theorem overTwoGiB_ne_nil : overTwoGiB ≠ [] := by
  intro h
  have h1 := overTwoGiB_length
  rw [h] at h1
  simp at h1

/-- Below `2^31` bytes `archive` followed by `decompress_file` gives back the text. -/
theorem archive_roundtrip (S : Str) (W : Nat) (input_file : String) (fs : FS)
    (hW : W = 1 ∨ W = 2 ∨ W = 4 ∨ W = 8 ∨ W = 16) (hfile : fs input_file = some S)
    (hlen : S.length < 2 ^ 31) :
    decompressText "output" W (archive input_file W fs) = .ok S ∧
    decompress_file "output" W (archive input_file W fs) =
      .ok ((archive input_file W fs).write "output.txt" S) := by
  have h : decompressText "output" W (archive input_file W fs) = .ok S := by
    unfold archive
    rw [hfile]
    exact decompressText_archiveText S W fs (legal_mul W hW) hlen
  refine ⟨h, ?_⟩
  unfold decompress_file
  rw [h]

theorem getD_map_range (f : Nat → Str) (n i : Nat) (hi : i < n) :
    ((List.range n).map f).getD i [] = f i := by
  rw [List.getD_eq_getElem?_getD, List.getElem?_map, List.getElem?_range hi]
  rfl

/-- From `2^31 + 1` to `2^31 + 15` bytes the loop pushes 16 chunks of `2^27`
bytes and the product of the remainder step overflows. -/
theorem splitChunks_overflow_steps (text : Str) (h1 : 2 ^ 31 < text.length)
    (h2 : text.length < 2 ^ 31 + 16) :
    text.length / 16 = 2 ^ 27 ∧ text.length % 16 ≠ 0 ∧
    (∃ chunks, splitLoop text (intOfSize (text.length / 16)) (List.range 16) = .ok chunks ∧
      ∀ i, i < 16 → (chunks.getD i []).length = text.length / 16) ∧
    mulInt ((16 : Nat) : Int) (intOfSize (text.length / 16)) = .error .intOverflow ∧
    splitChunks text = .error .intOverflow := by
  have hov := splitChunks_overflow text h1 h2
  have h31 : (2 : Nat) ^ 31 = 2147483648 := by norm_num
  have h27 : (2 : Nat) ^ 27 = 134217728 := by norm_num
  rw [h31] at h1 h2
  have hq : text.length / 16 = 134217728 := by omega
  have hn : text.length / 16 < 2 ^ 31 := by rw [h31]; omega
  have hloop := splitLoop_ok text (text.length / 16) hn (List.range 16) (by
    intro i hi
    rw [List.mem_range] at hi
    have : i * (text.length / 16) ≤ 15 * (text.length / 16) := Nat.mul_le_mul_right _ (by omega)
    rw [h31]
    constructor <;> omega)
  refine ⟨by rw [h27]; exact hq, by omega, ?_, ?_, hov⟩
  · rw [intOfSize_small _ hn]
    refine ⟨_, hloop, ?_⟩
    intro i hi
    rw [getD_map_range _ 16 i hi]
    apply substr_length
    have : i * (text.length / 16) ≤ 15 * (text.length / 16) := Nat.mul_le_mul_right _ (by omega)
    omega
  · rw [intOfSize_small _ hn]
    exact mulInt_overflow 16 (text.length / 16) (by rw [h31]; omega)
/-! ## Concrete runs -/

theorem tobe_text :
    "TOBEORNOTTOBEORTOBEORNOT".toList.map (fun ch => toChar ch.toNat) = tobe := by decide

theorem compress_tobe :
    compress tobe = [84, 79, 66, 69, 79, 82, 78, 79, 84, 256, 258, 260, 265, 259, 261, 263] := by
  rw [compress, compressLoop, encSeed_eq]
  decide!

theorem decompress_tobe_codes :
    decompress [84, 79, 66, 69, 79, 82, 78, 79, 84, 256, 258, 260, 265, 259, 261, 263] =
      .ok tobe := by
  rw [decompress, decompressInit, decSeed_eq]
  decide!

theorem compress_aaa : compress [97, 97, 97] = [97, 256] := by
  rw [compress, compressLoop, encSeed_eq]
  decide!

theorem decompress_above_size : decompress [257] = .ok [] := by
  rw [decompress, decompressInit, decSeed_eq]
  decide!

theorem decompress_above_size_later : decompress [65, 257] = .error .invalidData := by
  rw [decompress, decompressInit, decSeed_eq]
  decide!

/-! ## The claims -/

/-- C1. Single-chunk round trip: for every non-empty byte string `s`,
`decompress (compress s)` returns, without raising, exactly `s`. -/
theorem decompress_compress_roundtrip (s : Str) (hs : s ≠ []) :
    decompress (compress s) = .ok s :=
  decompress_compress s hs

/-- Witnesses of C1: the text `TOBEORNOTTOBEORTOBEORNOT`, and `aaa`, whose second
code 256 equals the size of the decoder dictionary when it is read. -/
theorem decompress_compress_roundtrip_witness :
    (tobe ≠ [] ∧ decompress (compress tobe) = .ok tobe) ∧
    (([97, 97, 97] : Str) ≠ [] ∧ compress [97, 97, 97] = [97, 256] ∧
      decompress (compress [97, 97, 97]) = .ok [97, 97, 97]) :=
  ⟨⟨by decide, decompress_compress_roundtrip tobe (by decide)⟩,
   ⟨by decide, compress_aaa, decompress_compress_roundtrip [97, 97, 97] (by decide)⟩⟩

/-- C2 (code defect). The round trip through `archive` and `decompress_file` does
not hold for every text.  With the text of `2^31 + 1` zero bytes in the file
`in.txt`, the split of `archive` fails for every worker count: the `int` product
`num_chunks * chunk_size = 16 * 2^27` overflows, no artifact is written, and
`decompress_file` on the directory `output` assembles the empty text, not the
input.  For every text `S` below `2^31` bytes held by the file `input_file` (the
empty text and texts shorter than 16 bytes included) and every worker count `W`
in `{1,2,4,8,16}` the round trip holds: the concatenation of the 16 slots is
`S`, and it is what `output.txt` receives; so for `TOBEORNOTTOBEORTOBEORNOT`
with 4 workers. -/
theorem pipeline_roundtrip_breaks :
    (overTwoGiB.length = 2 ^ 31 + 1 ∧ overTwoGiBInput "in.txt" = some overTwoGiB ∧
      splitChunks overTwoGiB = .error .intOverflow ∧
      ∀ W, W = 1 ∨ W = 2 ∨ W = 4 ∨ W = 8 ∨ W = 16 →
        archive "in.txt" W overTwoGiBInput = overTwoGiBInput ∧
        (∀ k, k < 16 → archive "in.txt" W overTwoGiBInput (artifactPath "output" k) = none) ∧
        decompressText "output" W (archive "in.txt" W overTwoGiBInput) = .ok [] ∧
        decompressText "output" W (archive "in.txt" W overTwoGiBInput) ≠ .ok overTwoGiB) ∧
    (∀ (S : Str) (W : Nat) (input_file : String) (fs : FS),
      W = 1 ∨ W = 2 ∨ W = 4 ∨ W = 8 ∨ W = 16 → fs input_file = some S → S.length < 2 ^ 31 →
        decompressText "output" W (archive input_file W fs) = .ok S ∧
        decompress_file "output" W (archive input_file W fs) =
          .ok ((archive input_file W fs).write "output.txt" S)) ∧
    decompressText "output" 4
      (archive "in.txt" 4 (fun q => if q = "in.txt" then some tobe else none)) = .ok tobe := by
  refine ⟨⟨overTwoGiB_length, if_pos rfl, splitChunks_overTwoGiB, ?_⟩, ?_, ?_⟩
  · intro W hW
    have hd : decompressText "output" W overTwoGiBInput = .ok [] :=
      decompressText_no_artifact "output" W overTwoGiBInput (legal_mul W hW)
        (fun k _ => overTwoGiBInput_artifact k)
    rw [archive_overTwoGiB W]
    refine ⟨rfl, fun k _ => overTwoGiBInput_artifact k, hd, ?_⟩
    rw [hd]
    intro h
    exact overTwoGiB_ne_nil (Except.ok.inj h).symm
  · intro S W input_file fs hW hfile hlen
    exact archive_roundtrip S W input_file fs hW hfile hlen
  · exact (archive_roundtrip tobe 4 "in.txt" _ (by decide) (if_pos rfl) (by decide)).1

/-- C3 (code defect). The chunk split of `archive` is not total: on the text of
`2^31 + 1` zero bytes the `int` product `num_chunks * chunk_size = 16 * 2^27`
overflows and the split yields no chunks.  On every text below `2^31` bytes the
split yields exactly 16 chunks, their concatenation in index order is the text,
and their lengths sum to the length of the text. -/
theorem splitChunks_not_total :
    (overTwoGiB.length = 2 ^ 31 + 1 ∧ splitChunks overTwoGiB = .error .intOverflow ∧
      ∀ chunks, splitChunks overTwoGiB ≠ .ok chunks) ∧
    (∀ text : Str, text.length < 2 ^ 31 →
      ∃ chunks, splitChunks text = .ok chunks ∧ chunks.length = 16 ∧ chunks.flatten = text ∧
        (chunks.map List.length).sum = text.length) := by
  refine ⟨⟨overTwoGiB_length, splitChunks_overTwoGiB, ?_⟩, ?_⟩
  · intro chunks h
    rw [splitChunks_overTwoGiB] at h
    cases h
  · intro text hlen
    refine ⟨idealChunks text, splitChunks_ok text hlen, idealChunks_length text,
      idealChunks_flatten text, ?_⟩
    rw [← List.length_flatten, idealChunks_flatten]

/-- C4 (code defect). The chunk lengths are not those of the claim for every
input: for every length `n` from `2^31 + 1` to `2^31 + 15` the loop pushes 16
chunks of `n / 16 = 2^27` bytes and the `int` product `num_chunks * chunk_size`
of the remainder step overflows, so that no chunk 15 of `n / 16 + n % 16` bytes
is produced; so on the text of `2^31 + 1` zero bytes.  For every input of length
`n < 2^31`, chunks 0..14 have length `n / 16` and chunk 15 has length
`n / 16 + n % 16`; when `n < 16`, chunks 0..14 are empty and chunk 15 is the
whole input, as for a text of 5 bytes. -/
theorem splitChunks_lengths_break :
    (∀ text : Str, 2 ^ 31 < text.length → text.length < 2 ^ 31 + 16 →
      text.length / 16 = 2 ^ 27 ∧ text.length % 16 ≠ 0 ∧
      (∃ chunks, splitLoop text (intOfSize (text.length / 16)) (List.range 16) = .ok chunks ∧
        ∀ i, i < 16 → (chunks.getD i []).length = text.length / 16) ∧
      mulInt ((16 : Nat) : Int) (intOfSize (text.length / 16)) = .error .intOverflow ∧
      splitChunks text = .error .intOverflow) ∧
    splitChunks overTwoGiB = .error .intOverflow ∧
    (∀ text : Str, text.length < 2 ^ 31 →
      ∃ chunks, splitChunks text = .ok chunks ∧ chunks.length = 16 ∧
        (∀ i, i < 15 → (chunks.getD i []).length = text.length / 16) ∧
        (chunks.getD 15 []).length = text.length / 16 + text.length % 16 ∧
        (text.length < 16 →
          (∀ i, i < 15 → chunks.getD i [] = []) ∧ chunks.getD 15 [] = text)) ∧
    splitChunks [1, 2, 3, 4, 5] =
      .ok [[], [], [], [], [], [], [], [], [], [], [], [], [], [], [], [1, 2, 3, 4, 5]] := by
  refine ⟨?_, splitChunks_overTwoGiB, ?_, ?_⟩
  · intro text h1 h2
    exact splitChunks_overflow_steps text h1 h2
  · intro text hlen
    have hdm := Nat.div_add_mod text.length 16
    refine ⟨idealChunks text, splitChunks_ok text hlen, idealChunks_length text, ?_, ?_, ?_⟩
    · intro i hi
      rw [idealChunks_getD_lt text i hi]
      apply substr_length
      have : i * (text.length / 16) ≤ 14 * (text.length / 16) := Nat.mul_le_mul_right _ (by omega)
      omega
    · rw [idealChunks_getD_last, List.length_drop]
      omega
    · intro hlt
      have h0 : text.length / 16 = 0 := Nat.div_eq_of_lt hlt
      constructor
      · intro i hi
        rw [idealChunks_getD_lt text i hi, h0]
        simp [substr]
      · rw [idealChunks_getD_last, h0]
        simp
  · rw [splitChunks_ok [1, 2, 3, 4, 5] (by decide)]
    decide

/-- C5. The scenario of the specification: the 24 bytes `TOBEORNOTTOBEORTOBEORNOT`,
as one chunk, compress to `84,79,66,69,79,82,78,79,84,256,258,260,265,259,261`
followed by `263`, and `decompress` of that code sequence returns the 24 bytes. -/
theorem tobe_scenario :
    "TOBEORNOTTOBEORTOBEORNOT".toList.map (fun ch => toChar ch.toNat) = tobe ∧
    tobe.length = 24 ∧
    compress tobe = [84, 79, 66, 69, 79, 82, 78, 79, 84, 256, 258, 260, 265, 259, 261, 263] ∧
    (compress tobe).take 15 = [84, 79, 66, 69, 79, 82, 78, 79, 84, 256, 258, 260, 265, 259, 261] ∧
    decompress [84, 79, 66, 69, 79, 82, 78, 79, 84, 256, 258, 260, 265, 259, 261, 263] =
      .ok tobe :=
  ⟨tobe_text, rfl, compress_tobe, by rw [compress_tobe]; rfl, decompress_tobe_codes⟩

/-- C6. The code sequence `[257]` has a first code greater than 256, the size of
the decoder dictionary at the first step, and `decompress` returns the empty
string for it and raises nothing: the first code is looked up with
`operator[]` and never checked.  The same code at the second position,
`[65, 257]`, does raise the `std::runtime_error`. -/
theorem decompress_first_code_unchecked :
    decompress [257] = .ok [] ∧ decompress [65, 257] = .error .invalidData :=
  ⟨decompress_above_size, decompress_above_size_later⟩

/-- C7. Validation of the worker count in `main`, in compression mode (1) and
decompression mode (2): a count outside `{1,2,4,8,16}` ends the run with exit
status 1, no call of `archive` or `decompress_file` and the file system
untouched; a count in the set leads to the call of `archive`, respectively
`decompress_file`, with that count. -/
theorem main_validates_threads (mode count_threads : Int) (path : String) (fs : FS)
    (hmode : mode = 1 ∨ mode = 2) :
    (¬ LegalThreads count_threads →
      (main mode count_threads path fs).status = some 1 ∧
      (main mode count_threads path fs).calls = [] ∧
      (main mode count_threads path fs).fs = fs) ∧
    (LegalThreads count_threads →
      (mode = 1 →
        (main mode count_threads path fs).calls = [Call.archive path count_threads] ∧
        (main mode count_threads path fs).status = some 0 ∧
        (main mode count_threads path fs).fs = archive path count_threads.toNat fs) ∧
      (mode = 2 →
        (main mode count_threads path fs).calls = [Call.decompress_file path count_threads] ∧
        ((main mode count_threads path fs).status = some 0 ↔
          ∃ fs1, decompress_file path count_threads.toNat fs = .ok fs1 ∧
            (main mode count_threads path fs).fs = fs1))) := by
  have hinv : invalidThreads count_threads = true ↔ ¬ LegalThreads count_threads := by
    simp only [invalidThreads, LegalThreads, Bool.and_eq_true, bne_iff_ne, ne_eq]
    tauto
  constructor
  · intro hbad
    have hb := hinv.2 hbad
    rcases hmode with rfl | rfl
    · simp [main, hb]
    · simp [main, hb]
  · intro hgood
    have hb : invalidThreads count_threads = false := by
      cases h : invalidThreads count_threads with
      | false => rfl
      | true => exact absurd hgood (hinv.1 h)
    constructor
    · intro h1
      subst h1
      simp [main, hb]
    · intro h2
      subst h2
      cases hd : decompress_file path count_threads.toNat fs with
      | ok fs1 => simp [main, hb, hd]
      | error e => simp [main, hb, hd]

/-- Witness of C7: in compression mode the count 3 is rejected and the count 4
is passed on to `archive`. -/
theorem main_validates_threads_witness :
    ((main 1 3 "in.txt" (fun _ => none)).status = some 1 ∧
      (main 1 3 "in.txt" (fun _ => none)).calls = [] ∧
      (main 1 3 "in.txt" (fun _ => none)).fs = (fun _ => none)) ∧
    ((main 1 4 "in.txt" (fun _ => none)).calls = [Call.archive "in.txt" 4] ∧
      (main 1 4 "in.txt" (fun _ => none)).status = some 0 ∧
      (main 1 4 "in.txt" (fun _ => none)).fs = archive "in.txt" (4 : Int).toNat (fun _ => none)) :=
  ⟨(main_validates_threads 1 3 "in.txt" (fun _ => none) (Or.inl rfl)).1
      (by unfold LegalThreads; decide),
   ((main_validates_threads 1 4 "in.txt" (fun _ => none) (Or.inl rfl)).2
      (by unfold LegalThreads; decide)).1 rfl⟩

/-- C8. Static chunk assignment, for `W` in `{1,2,4,8,16}` and `c = 16 / W`:
(1) the dispatch loop creates `W` threads and gives thread `i` the slice
`[i*c, (i+1)*c)` of the 16 items together with the start index `i*c`;
(2) every index `k < 16` lies in the range of exactly one thread;
(3) on compression, thread `i` leaves in the artifact named by `k` the codes of
chunk `k` for every `k` of its range, and leaves every other artifact as it was;
(4) on decompression, thread `i` returns if each artifact of its range decodes,
and when it returns, slot `k` holds the result of `decompress_chunk` on the
artifact named by `k` for every `k` of its range, and every other slot is as it
was. -/
theorem static_chunk_assignment (W : Nat) (hW : W = 1 ∨ W = 2 ∨ W = 4 ∨ W = 8 ∨ W = 16) :
    (∀ (chunks : List Str), (threadArgs chunks W).length = W ∧
      ∀ i, i < W → (threadArgs chunks W)[i]? =
        some ((chunks.drop (i * (16 / W))).take (16 / W), i * (16 / W))) ∧
    (∀ (files : List String), (threadArgs files W).length = W ∧
      ∀ i, i < W → (threadArgs files W)[i]? =
        some ((files.drop (i * (16 / W))).take (16 / W), i * (16 / W))) ∧
    (∀ k, k < 16 → ∃! i, i < W ∧ i * (16 / W) ≤ k ∧ k < (i + 1) * (16 / W)) ∧
    (∀ (chunks : List Str) (dir : String) (fs : FS) (i k : Nat),
      chunks.length = 16 → i < W → k < 16 →
      threading_compression ((chunks.drop (i * (16 / W))).take (16 / W)) dir (i * (16 / W)) fs
          (artifactPath dir k) =
        if i * (16 / W) ≤ k ∧ k < (i + 1) * (16 / W) then
          some (writeCodes (compress (chunks.getD k [])))
        else fs (artifactPath dir k)) ∧
    (∀ (dir : String) (fs : FS) (outputs : List Str) (i : Nat),
      outputs.length = 16 → i < W →
      ((∀ k, i * (16 / W) ≤ k → k < (i + 1) * (16 / W) →
          ∃ r, decompress_chunk (artifactPath dir k) (outputs.getD k []) fs = .ok r) →
        ∃ outs, threading_decompression fs
          ((((List.range 16).map (artifactPath dir)).drop (i * (16 / W))).take (16 / W))
          outputs (i * (16 / W)) = .ok outs) ∧
      ∀ outs, threading_decompression fs
          ((((List.range 16).map (artifactPath dir)).drop (i * (16 / W))).take (16 / W))
          outputs (i * (16 / W)) = .ok outs →
        outs.length = 16 ∧
        ∀ k, k < 16 →
          (i * (16 / W) ≤ k ∧ k < (i + 1) * (16 / W) →
            decompress_chunk (artifactPath dir k) (outputs.getD k []) fs = .ok (outs.getD k [])) ∧
          (¬ (i * (16 / W) ≤ k ∧ k < (i + 1) * (16 / W)) →
            outs.getD k [] = outputs.getD k [])) := by
  have hmul := legal_mul W hW
  have hrange : ∀ i, i < W → i * (16 / W) + 16 / W ≤ 16 := by
    intro i hi
    have h1 : (i + 1) * (16 / W) ≤ W * (16 / W) := Nat.mul_le_mul_right _ (by omega)
    rw [Nat.succ_mul] at h1
    omega
  have hargs : ∀ {α : Type} (items : List α), (threadArgs items W).length = W ∧
      ∀ i, i < W → (threadArgs items W)[i]? =
        some ((items.drop (i * (16 / W))).take (16 / W), i * (16 / W)) := by
    intro α items
    refine ⟨threadArgsFrom_length _ _ _ _, ?_⟩
    intro i hi
    have := threadArgsFrom_getElem? items (16 / W) W 0 i hi
    rw [Nat.zero_add] at this
    exact this
  refine ⟨fun chunks => hargs chunks, fun files => hargs files, legal_partition W hW, ?_, ?_⟩
  · intro chunks dir fs i k hlen hi hk
    have hsl := slice_length chunks (i * (16 / W)) (16 / W) (by rw [hlen]; exact hrange i hi)
    rw [threading_compression_read _ dir _ fs k (by rw [hsl]; exact hrange i hi) hk, hsl,
      Nat.succ_mul]
    by_cases h : i * (16 / W) ≤ k ∧ k < i * (16 / W) + 16 / W
    · rw [if_pos h, if_pos h]
      congr 3
      rw [List.getD_eq_getElem?_getD, List.getD_eq_getElem?_getD,
        List.getElem?_take_of_lt (by omega), List.getElem?_drop]
      congr 2
      omega
    · rw [if_neg h, if_neg h]
  · intro dir fs outputs i hlen hi
    have hfl : ((List.range 16).map (artifactPath dir)).length = 16 := by simp
    have hsl := slice_length ((List.range 16).map (artifactPath dir)) (i * (16 / W)) (16 / W)
      (by rw [hfl]; exact hrange i hi)
    have hget : ∀ k, i * (16 / W) ≤ k → k < i * (16 / W) + 16 / W →
        ((((List.range 16).map (artifactPath dir)).drop (i * (16 / W))).take (16 / W)).getD
          (k - i * (16 / W)) "" = artifactPath dir k := by
      intro k h1 h2
      have hk16 : k < 16 := by have := hrange i hi; omega
      rw [← files_getD dir k hk16, List.getD_eq_getElem?_getD, List.getD_eq_getElem?_getD,
        List.getElem?_take_of_lt (by omega), List.getElem?_drop]
      congr 2
      omega
    constructor
    · intro hall
      have hch : ∀ k, ∃ r, i * (16 / W) ≤ k → k < (i + 1) * (16 / W) →
          decompress_chunk (artifactPath dir k) (outputs.getD k []) fs = .ok r := by
        intro k
        by_cases h : i * (16 / W) ≤ k ∧ k < (i + 1) * (16 / W)
        · obtain ⟨r, hr⟩ := hall k h.1 h.2
          exact ⟨r, fun _ _ => hr⟩
        · exact ⟨[], fun h1 h2 => absurd ⟨h1, h2⟩ h⟩
      choose res hres using hch
      obtain ⟨outs, e1, _, _⟩ := threading_decompression_ok fs res _ outputs (i * (16 / W))
        (by rw [hsl, hlen]; exact hrange i hi)
        (by
          intro k h1 h2
          rw [hsl] at h2
          rw [hget k h1 h2]
          exact hres k h1 (by rw [Nat.succ_mul]; exact h2))
      exact ⟨outs, e1⟩
    · intro outs hout
      obtain ⟨e2, e3⟩ := threading_decompression_sound fs _ outputs (i * (16 / W)) outs
        (by rw [hsl, hlen]; exact hrange i hi) hout
      rw [hsl] at e3
      refine ⟨by rw [e2, hlen], ?_⟩
      intro k _
      rw [Nat.succ_mul]
      constructor
      · intro h
        have := (e3 k).1 h
        rw [hget k h.1 h.2] at this
        exact this
      · intro h
        exact (e3 k).2 h

/-- Witness of C8: with 4 workers, thread 2 gets the chunks 8..11 and the start
index 8, index 9 belongs to exactly one thread, and thread 2 leaves the codes
of chunk 9 in the artifact `output/compressed_part_9.bin`. -/
theorem static_chunk_assignment_witness :
    (threadArgs (List.replicate 16 tobe) 4)[2]? =
      some (((List.replicate 16 tobe).drop (2 * (16 / 4))).take (16 / 4), 2 * (16 / 4)) ∧
    (∃! i, i < 4 ∧ i * (16 / 4) ≤ 9 ∧ 9 < (i + 1) * (16 / 4)) ∧
    threading_compression (((List.replicate 16 tobe).drop (2 * (16 / 4))).take (16 / 4))
        "output" (2 * (16 / 4)) (fun _ => none) (artifactPath "output" 9) =
      some (writeCodes (compress ((List.replicate 16 tobe).getD 9 []))) :=
  ⟨((static_chunk_assignment 4 (by decide)).1 (List.replicate 16 tobe)).2 2 (by decide),
   (static_chunk_assignment 4 (by decide)).2.2.1 9 (by decide),
   ((static_chunk_assignment 4 (by decide)).2.2.2.1 (List.replicate 16 tobe) "output"
      (fun _ => none) 2 9 (by decide) (by decide) (by decide)).trans (if_pos (by decide))⟩

/-- C9. Artifact codec round trip: for every sequence `cs` of 32-bit signed codes,
`save_compressed_data` leaves in the file exactly the concatenation of the four
bytes of each code, `4 * |cs|` bytes with nothing before, between or after
them, and `read_compressed_data` of that file returns `cs`. -/
theorem artifact_codec_roundtrip (cs : List Int) (path : String) (fs : FS)
    (h : ∀ c ∈ cs, IsInt32 c) :
    save_compressed_data cs path fs path = some ((cs.map int32Bytes).flatten) ∧
    ((cs.map int32Bytes).flatten).length = 4 * cs.length ∧
    (∀ c, (int32Bytes c).length = 4) ∧
    read_compressed_data path (save_compressed_data cs path fs) = cs := by
  refine ⟨?_, ?_, fun c => rfl, read_save cs path fs h⟩
  · simp only [save_compressed_data, FS.write, if_true, writeCodes_eq_flatten]
  · rw [← writeCodes_eq_flatten, writeCodes_length]

/-- Witness of C9: the codes `-1, 256, 2^31 - 1, -2^31` are stored in 16 bytes
and read back unchanged. -/
theorem artifact_codec_roundtrip_witness :
    save_compressed_data [-1, 256, 2147483647, -2147483648] "p" (fun _ => none) "p" =
      some [255, 255, 255, 255, 0, 1, 0, 0, 255, 255, 255, 127, 0, 0, 0, 128] ∧
    read_compressed_data "p"
      (save_compressed_data [-1, 256, 2147483647, -2147483648] "p" (fun _ => none)) =
      [-1, 256, 2147483647, -2147483648] := by
  have h := artifact_codec_roundtrip [-1, 256, 2147483647, -2147483648] "p" (fun _ => none)
    (by intro c hc; simp only [List.mem_cons, List.mem_singleton, List.mem_nil_iff, or_false] at hc
        rcases hc with rfl | rfl | rfl | rfl <;> exact ⟨by norm_num, by norm_num⟩)
  exact ⟨h.1.trans (by decide), h.2.2.2⟩

/-- C10. Seed invariant: for a non-empty code sequence with all codes in
`0..255`, `decompress` returns the byte string of the same length whose i-th
byte has the value of the i-th code, and in the dictionary it ends with every
seeded code `b` still maps to the one-byte string `b`. -/
theorem decompress_literals (cs : List Int) (hne : cs ≠ []) (h : ∀ c ∈ cs, 0 ≤ c ∧ c ≤ 255) :
    decompress cs = .ok (cs.map byteOfCode) ∧
    (cs.map byteOfCode).length = cs.length ∧
    (cs.map byteOfCode).map (fun b => (b.val : Int)) = cs ∧
    ∃ ds, decompressLoop (decompressInit (cs.headD 0)) cs.tail = .ok ds ∧
      ∀ b : Byte, ds.dictionary.find? (b.val : Int) = some [b] := by
  cases cs with
  | nil => exact absurd rfl hne
  | cons c rest =>
    have hc := h c (by simp)
    obtain ⟨ds, e1, e2, e3⟩ := decompressLoop_literals rest decSeed [byteOfCode c] [byteOfCode c]
      decSeed_ok (fun x hx => h x (by simp [hx]))
    refine ⟨?_, by simp, ?_, ds, ?_, e3.singles⟩
    · unfold decompress
      simp only [decompressInit_literal c hc.1 hc.2, e1, e2]
      rfl
    · rw [List.map_map]
      conv_rhs => rw [← List.map_id (c :: rest)]
      apply List.map_congr_left
      intro x hx
      exact byteOfCode_val x (h x hx).1 (h x hx).2
    · simp only [List.headD_cons, List.tail_cons, decompressInit_literal c hc.1 hc.2]
      exact e1

/-- Witness of C10: the codes `[72, 105]` decode to the two bytes `72, 105`, and
the single code `[0]` to the one byte `0`. -/
theorem decompress_literals_witness :
    decompress [72, 105] = .ok [72, 105] ∧ decompress [0] = .ok [0] :=
  ⟨(decompress_literals [72, 105] (by decide) (by decide)).1,
   (decompress_literals [0] (by decide) (by decide)).1⟩

/-- C11. Empty chunk: `compress` of the empty byte string is the empty code
sequence, and for every byte string `s`, `compress s` is empty if and only if
`s` is empty. -/
theorem compress_empty_iff (s : Str) : compress [] = [] ∧ (compress s = [] ↔ s = []) := by
  refine ⟨compress_nil, ?_, ?_⟩
  · intro h
    by_contra hne
    exact compress_ne_nil s hne h
  · intro h
    rw [h]
    exact compress_nil

/-- C12 (amended). The artifacts do not depend on the worker count: for every
input file and any two worker counts in `{1,2,4,8,16}`, `archive` leaves the
same bytes in each of the 16 artifacts, hence the same 16 pairs of artifact
index and code sequence; when the input file holds the text `S` and the split
of `S` yields the chunks `chunks`, artifact `k` holds the codes of chunk `k`
whatever the worker count. -/
theorem artifacts_independent_of_workers (input_file : String) (W1 W2 : Nat) (fs : FS)
    (h1 : W1 = 1 ∨ W1 = 2 ∨ W1 = 4 ∨ W1 = 8 ∨ W1 = 16)
    (h2 : W2 = 1 ∨ W2 = 2 ∨ W2 = 4 ∨ W2 = 8 ∨ W2 = 16) :
    (∀ k, k < 16 → archive input_file W1 fs (artifactPath "output" k) =
      archive input_file W2 fs (artifactPath "output" k)) ∧
    artifactCodes "output" (archive input_file W1 fs) =
      artifactCodes "output" (archive input_file W2 fs) ∧
    (∀ S chunks, fs input_file = some S → splitChunks S = .ok chunks → ∀ k, k < 16 →
      archive input_file W1 fs (artifactPath "output" k) =
        some (writeCodes (compress (chunks.getD k [])))) :=
  ⟨archive_same_files input_file W1 W2 fs h1 h2, archive_same_codes input_file W1 W2 fs h1 h2,
   fun S chunks hS hs k hk => archive_read input_file S chunks W1 fs k hS hs h1 hk⟩

/-- Witness of C12 (amended): the text `TOBEORNOTTOBEORTOBEORNOT` archived with 1
worker and with 16 workers gives the same 16 pairs. -/
theorem artifacts_independent_of_workers_witness :
    artifactCodes "output"
        (archive "in.txt" 1 (fun q => if q = "in.txt" then some tobe else none)) =
      artifactCodes "output"
        (archive "in.txt" 16 (fun q => if q = "in.txt" then some tobe else none)) :=
  (artifacts_independent_of_workers "in.txt" 1 16 _ (by decide) (by decide)).2.1

/-- C12 (as stated) is false: there are no input and no two different legal worker
counts for which the 16 pairs of artifact index and code sequence written by
`archive` differ. -/
theorem artifacts_never_differ :
    ¬ ∃ (input_file : String) (fs : FS) (W1 W2 : Nat),
      (W1 = 1 ∨ W1 = 2 ∨ W1 = 4 ∨ W1 = 8 ∨ W1 = 16) ∧
      (W2 = 1 ∨ W2 = 2 ∨ W2 = 4 ∨ W2 = 8 ∨ W2 = 16) ∧ W1 ≠ W2 ∧
      artifactCodes "output" (archive input_file W1 fs) ≠
        artifactCodes "output" (archive input_file W2 fs) := by
  rintro ⟨input_file, fs, W1, W2, h1, h2, _, hne⟩
  exact hne (archive_same_codes input_file W1 W2 fs h1 h2)

/-- C13. Missing artifact against zero-length artifact, the one `compress_chunk`
writes for an empty chunk: `decompress_chunk` returns the output slot unchanged
in both cases and writes the same line `Unable to read compressed data` to
`std::cerr` in both cases; for the missing artifact `read_compressed_data`
writes the line `Unable to open input file!` before it, so the outcome, made of
the lines on `std::cerr` and the output slot, differs. -/
theorem missing_differs_from_empty (input_file : String) (output : Str) (fsMissing fsEmpty : FS)
    (hmissing : fsMissing input_file = none) (hempty : fsEmpty input_file = some []) :
    (∀ fs, compress_chunk [] input_file fs input_file = some []) ∧
    decompress_chunk input_file output fsMissing = .ok output ∧
    decompress_chunk input_file output fsEmpty = .ok output ∧
    decompress_chunk_cerr input_file fsMissing =
      ["Error: Unable to open input file!",
       "Error: Unable to read compressed data from file " ++ input_file] ∧
    decompress_chunk_cerr input_file fsEmpty =
      ["Error: Unable to read compressed data from file " ++ input_file] ∧
    (decompress_chunk_cerr input_file fsMissing, decompress_chunk input_file output fsMissing) ≠
      (decompress_chunk_cerr input_file fsEmpty, decompress_chunk input_file output fsEmpty) := by
  have h1 := decompress_chunk_cerr_missing input_file fsMissing hmissing
  have h2 := decompress_chunk_cerr_empty input_file fsEmpty hempty
  refine ⟨compress_chunk_nil input_file, ?_, ?_, h1, h2, ?_⟩
  · simp only [decompress_chunk, read_compressed_data, hmissing, if_true]
  · simp only [decompress_chunk, read_compressed_data, hempty, readCodes, if_true]
  · intro h
    have := congrArg (fun p => p.1.length) h
    simp only [h1, h2] at this
    simp at this

/-- Witness of C13: artifact 5 of the directory `output`, once missing and once as
written by `compress_chunk` for the empty chunk. -/
theorem missing_differs_from_empty_witness :
    (decompress_chunk_cerr (artifactPath "output" 5) (fun _ => none),
        decompress_chunk (artifactPath "output" 5) [] (fun _ => none)) ≠
      (decompress_chunk_cerr (artifactPath "output" 5)
          (compress_chunk [] (artifactPath "output" 5) (fun _ => none)),
        decompress_chunk (artifactPath "output" 5) []
          (compress_chunk [] (artifactPath "output" 5) (fun _ => none))) :=
  (missing_differs_from_empty (artifactPath "output" 5) [] (fun _ => none)
    (compress_chunk [] (artifactPath "output" 5) (fun _ => none)) rfl
    (compress_chunk_nil _ _)).2.2.2.2.2

/-- C14. A run with one corrupt artifact: in the directory `corruptArtifacts` the
codes of chunk 3 make `decompress` raise and every other chunk decodes to the
bytes `72, 105`; for every worker count in `{1,2,4,8,16}` `decompress_file`
raises as a whole, so the decoded output of the other 15 chunks is not
produced. -/
theorem corrupt_chunk_aborts_run :
    decompress_chunk (artifactPath "output" 3) [] corruptArtifacts = .error .invalidData ∧
    (∀ j, j < 16 → j ≠ 3 →
      decompress_chunk (artifactPath "output" j) [] corruptArtifacts = .ok [72, 105]) ∧
    (∀ W, (W = 1 ∨ W = 2 ∨ W = 4 ∨ W = 8 ∨ W = 16) →
      decompressText "output" W corruptArtifacts = .error .invalidData ∧
      decompress_file "output" W corruptArtifacts = .error .invalidData) :=
  ⟨corruptArtifacts_chunk3, corruptArtifacts_other,
   fun W hW => decompressText_raises "output" W corruptArtifacts 3 _ (legal_mul W hW) (by decide)
     corruptArtifacts_chunk3⟩

/-- C15. Exact failure condition of the decoder, for a code sequence whose first
code is in `0..255`: `decompress` raises the invalid-data error if and only if
some code at a position `i ≥ 1` is negative or greater than `255 + i`, and
otherwise it returns; after any accepted codes `pre` the dictionary has
`255 + i` entries at the next position `i = |pre| + 1`, and the code `255 + i`
is accepted there and resolved as the previous string plus its first byte. -/
theorem decompress_raises_iff (c0 : Int) (rest : List Int) (h0 : 0 ≤ c0 ∧ c0 ≤ 255) :
    (decompress (c0 :: rest) = .error .invalidData ↔
      ∃ i, 1 ≤ i ∧ i < (c0 :: rest).length ∧
        ((c0 :: rest).getD i 0 < 0 ∨ (c0 :: rest).getD i 0 > 255 + (i : Int))) ∧
    ((¬ ∃ i, 1 ≤ i ∧ i < (c0 :: rest).length ∧
        ((c0 :: rest).getD i 0 < 0 ∨ (c0 :: rest).getD i 0 > 255 + (i : Int))) →
      ∃ out, decompress (c0 :: rest) = .ok out) ∧
    (∀ (pre : List Int) (st : DecState), decompressLoop (decompressInit c0) pre = .ok st →
      (st.dictionary.size : Int) = 255 + ((pre.length + 1 : Nat) : Int) ∧
      ∃ st1, decompressStep st (255 + ((pre.length + 1 : Nat) : Int)) = .ok st1 ∧
        st1.prev_str = st.prev_str ++ [front st.prev_str] ∧
        st1.decompressed_text = st.decompressed_text ++ (st.prev_str ++ [front st.prev_str])) := by
  have hinit := decompressInit_literal c0 h0.1 h0.2
  have hiff : decompress (c0 :: rest) = .error .invalidData ↔
      ∃ i, 1 ≤ i ∧ i < (c0 :: rest).length ∧
        ((c0 :: rest).getD i 0 < 0 ∨ (c0 :: rest).getD i 0 > 255 + (i : Int)) := by
    have hl := decompressLoop_raises_iff rest decSeed [byteOfCode c0] [byteOfCode c0] decSeed_ok
    rw [decSeed_size] at hl
    constructor
    · intro h
      rw [decompress, hinit] at h
      cases hd : decompressLoop (DecState.mk decSeed [byteOfCode c0] [byteOfCode c0]) rest with
      | ok st => rw [hd] at h; cases h
      | error e =>
        have he := decompressLoop_error rest _ e hd
        subst he
        obtain ⟨j, hj, hb⟩ := hl.1 hd
        refine ⟨j + 1, by omega, by simpa using hj, ?_⟩
        rw [List.getD_cons_succ]
        push_cast at hb ⊢
        omega
    · rintro ⟨i, hi1, hi2, hb⟩
      obtain ⟨j, rfl⟩ : ∃ j, i = j + 1 := ⟨i - 1, by omega⟩
      rw [List.getD_cons_succ] at hb
      have := hl.2 ⟨j, by simpa using hi2, by push_cast at hb ⊢; omega⟩
      rw [decompress, hinit, this]
  refine ⟨hiff, ?_, ?_⟩
  · intro hno
    cases hd : decompress (c0 :: rest) with
    | ok out => exact ⟨out, rfl⟩
    | error e =>
      have he := decompress_error (c0 :: rest) (by simp) e hd
      subst he
      exact absurd (hiff.1 hd) hno
  · intro pre st hst
    rw [hinit] at hst
    obtain ⟨hok, hsz⟩ := decompressLoop_state pre decSeed _ _ st decSeed_ok hst
    rw [decSeed_size] at hsz
    have hsize : (st.dictionary.size : Int) = 255 + ((pre.length + 1 : Nat) : Int) := by
      rw [hsz]; push_cast; omega
    refine ⟨hsize, ?_⟩
    rw [← hsize]
    obtain ⟨str, hstep, hstr, _⟩ := decompressStep_accept st.dictionary st.prev_str
      st.decompressed_text (st.dictionary.size : Int) hok (by omega) (le_refl _)
    have hs := hstr rfl
    subst hs
    exact ⟨_, hstep, rfl, rfl⟩

/-- Witness of C15: the code 256 at position 1 is accepted and resolved as `AA`,
the code 257 at position 1 makes `decompress` raise. -/
theorem decompress_raises_iff_witness :
    (decompress [65, 257] = .error .invalidData ↔
      ∃ i, 1 ≤ i ∧ i < ([65, 257] : List Int).length ∧
        (([65, 257] : List Int).getD i 0 < 0 ∨ ([65, 257] : List Int).getD i 0 > 255 + (i : Int))) ∧
    ∃ out, decompress [65, 256] = .ok out :=
  ⟨(decompress_raises_iff 65 [257] (by decide)).1,
   (decompress_raises_iff 65 [256] (by decide)).2.1 (by
      rintro ⟨i, h1, h2, h3⟩
      have hi : i = 1 := by simp at h2; omega
      subst hi
      simp at h3)⟩

/-- C16. Invariant of the encoder dictionary, in the state `compress` has reached
after any text: distinct strings have distinct codes; the codes in use are
exactly `0 .. size-1`; every one-byte string maps to its own value; an
iteration leaves the dictionary unchanged on a hit and on a miss adds the new
string with the code equal to the size before the insertion; the final flush
leaves the dictionary unchanged; the size at the start is 256, so the first
inserted string gets 256.  The states after the prefixes of an input are the
states of its run. -/
theorem encoder_dictionary_invariant (text : Str) :
    (∀ s1 s2 c, (compressLoop text).dictionary.find? s1 = some c →
      (compressLoop text).dictionary.find? s2 = some c → s1 = s2) ∧
    (∀ c : Int, (∃ s, (compressLoop text).dictionary.find? s = some c) ↔
      (0 ≤ c ∧ c < ((compressLoop text).dictionary.size : Int))) ∧
    (∀ b : Byte, (compressLoop text).dictionary.find? [b] = some (b.val : Int)) ∧
    (∀ c : Byte,
      ((compressLoop text).dictionary.count ((compressLoop text).current ++ [c]) ≠ 0 →
        (compressStep (compressLoop text) c).dictionary = (compressLoop text).dictionary) ∧
      ((compressLoop text).dictionary.count ((compressLoop text).current ++ [c]) = 0 →
        (compressStep (compressLoop text) c).dictionary =
          (compressLoop text).dictionary ++
            [((compressLoop text).current ++ [c], ((compressLoop text).dictionary.size : Int))])) ∧
    (compressFlush (compressLoop text)).dictionary = (compressLoop text).dictionary ∧
    (compressLoop []).dictionary.size = 256 ∧
    (∀ p q : Str, compressLoop (p ++ q) = q.foldl compressStep (compressLoop p)) :=
  ⟨(encBij_loop text).inj, (encBij_loop text).onto, (encOK_loop text).singles,
   compressStep_dictionary _ (encOK_loop text), compressFlush_dictionary _ (encOK_loop text),
   compressLoop_nil_size, compressLoop_append⟩

/-- C17. Encoder and decoder end in lockstep: for every non-empty byte string `s`,
`decompress` processes all of `compress s`, and the dictionary it then holds is
the inverse of the dictionary `compress` holds after all of `s`: both have
`256 + (number of emitted codes - 1)` entries, and a string maps to the code
`c` in the encoder if and only if `c` maps to that string in the decoder. -/
theorem final_dictionaries_inverse (s : Str) (hs : s ≠ []) :
    ∃ ds, decompressLoop (decompressInit ((compress s).headD 0)) (compress s).tail = .ok ds ∧
      (compressFlush (compressLoop s)).dictionary.size = 256 + ((compress s).length - 1) ∧
      ds.dictionary.size = 256 + ((compress s).length - 1) ∧
      ∀ (str : Str) (c : Int),
        (compressFlush (compressLoop s)).dictionary.find? str = some c ↔
          ds.dictionary.find? c = some str := by
  cases s with
  | nil => exact absurd rfl hs
  | cons a t =>
    cases t with
    | nil =>
      have hd : (compressFlush (compressLoop [a])).dictionary = encSeed := by
        unfold compressLoop
        rw [List.foldl_cons, List.foldl_nil, compressStep_first,
          compressFlush_dictionary_mk encSeed [a] [] (a.val : Int) (encSeed_single a)]
      rw [compress_single, hd]
      refine ⟨DecState.mk decSeed [a] [a], ?_, ?_, ?_, ?_⟩
      · simp only [List.headD_cons, List.tail_cons, decompressInit_single, decompressLoop]
      · rw [encSeed_size]; rfl
      · simp only []
        rw [decSeed_size]; rfl
      · intro str c
        simp only []
        rw [encSeed_find?, decSeed_find?]
    | cons b t =>
      obtain ⟨new, ds, e1, e2, e3, e4, e5⟩ :=
        lockstep_dict_mk t _ _ [(a.val : Int)] _ _ [a] (sync_start a b)
      have hc : compress (a :: b :: t) = (a.val : Int) :: new := by
        unfold compress compressLoop
        rw [List.foldl_cons, List.foldl_cons, compressStep_first, compressStep_second, e1]
        simp only [List.singleton_append]
      have hl : compressLoop (a :: b :: t) = t.foldl compressStep
          { dictionary := encSeed.assign [a, b] (encSeed.size : Int), current := [b],
            compressed_data := [(a.val : Int)] } := by
        unfold compressLoop
        rw [List.foldl_cons, List.foldl_cons, compressStep_first, compressStep_second]
      rw [decSeed_size] at e5
      rw [hc, hl]
      refine ⟨ds, ?_, ?_, ?_, e3⟩
      · simp only [List.headD_cons, List.tail_cons, decompressInit_single]
        exact e2
      · rw [e4, e5]; simp
      · rw [e5]; simp

/-- Witness of C17: the text `aaa`. -/
theorem final_dictionaries_inverse_witness :
    ∃ ds, decompressLoop (decompressInit ((compress [97, 97, 97]).headD 0))
        (compress [97, 97, 97]).tail = .ok ds ∧
      (compressFlush (compressLoop [97, 97, 97])).dictionary.size =
        256 + ((compress [97, 97, 97]).length - 1) ∧
      ds.dictionary.size = 256 + ((compress [97, 97, 97]).length - 1) ∧
      ∀ (str : Str) (c : Int),
        (compressFlush (compressLoop [97, 97, 97])).dictionary.find? str = some c ↔
          ds.dictionary.find? c = some str :=
  final_dictionaries_inverse [97, 97, 97] (by decide)

/-- C18. Empty-sequence guard of `decompress_chunk`: when the codes read are empty
(the artifact cannot be opened, or it holds fewer than 4 bytes) the output slot
is returned unchanged and nothing is raised; otherwise the slot becomes the
result of `decompress` on the codes read, which are not empty; so the read of
element 0 of an empty vector never happens. -/
theorem decompress_chunk_guard (input_file : String) (output : Str) (fs : FS) :
    (read_compressed_data input_file fs = [] →
      decompress_chunk input_file output fs = .ok output) ∧
    (read_compressed_data input_file fs ≠ [] →
      decompress_chunk input_file output fs = decompress (read_compressed_data input_file fs)) ∧
    (fs input_file = none → read_compressed_data input_file fs = []) ∧
    (∀ bytes, fs input_file = some bytes →
      (read_compressed_data input_file fs = [] ↔ bytes.length < 4)) ∧
    decompress_chunk input_file output fs ≠ .error .emptyInput := by
  refine ⟨?_, ?_, ?_, ?_, ?_⟩
  · intro h
    unfold decompress_chunk
    simp only [h, if_true]
  · intro h
    unfold decompress_chunk
    simp only [h, if_false]
  · intro h
    unfold read_compressed_data
    rw [h]
  · intro bytes h
    unfold read_compressed_data
    rw [h]
    exact readCodes_eq_nil bytes
  · intro h
    have := decompress_chunk_error input_file output fs _ h
    cases this

/-- C19. The prefix is always present: in the state `compress` has reached after
any text, (1) if the next byte `c` takes the miss branch, the running prefix is
not empty, it is a key of the dictionary, and the lookup `dictionary[current]`
returns its code and leaves the dictionary unchanged; (2) the same holds in the
final flush, which looks the prefix up only when it is not empty; (3) every
emitted code is the code of a non-empty key.  The states after the prefixes of
an input are the states of its run. -/
theorem prefix_always_present (text : Str) :
    (∀ c : Byte, (compressLoop text).dictionary.count ((compressLoop text).current ++ [c]) = 0 →
      (compressLoop text).current ≠ [] ∧
      ∃ code, (compressLoop text).dictionary.find? (compressLoop text).current = some code ∧
        (compressLoop text).dictionary.index (compressLoop text).current 0 =
          (code, (compressLoop text).dictionary) ∧
        (compressStep (compressLoop text) c).compressed_data =
          (compressLoop text).compressed_data ++ [code]) ∧
    ((compressLoop text).current ≠ [] →
      ∃ code, (compressLoop text).dictionary.find? (compressLoop text).current = some code ∧
        (compressLoop text).dictionary.index (compressLoop text).current 0 =
          (code, (compressLoop text).dictionary) ∧
        compress text = (compressLoop text).compressed_data ++ [code]) ∧
    ((compressLoop text).current = [] → compress text = (compressLoop text).compressed_data) ∧
    (∀ p q : Str, compressLoop (p ++ q) = q.foldl compressStep (compressLoop p)) := by
  have hok := encOK_loop text
  refine ⟨?_, ?_, ?_, compressLoop_append⟩
  · intro c hc
    rw [Map.count_eq_zero_iff] at hc
    have hne := hok.cur_ne_of_miss c hc
    obtain ⟨code, h1, h2⟩ := hok.lookup hne
    refine ⟨hne, code, h1, h2, ?_⟩
    rw [compressStep_miss _ c code hc h1]
  · intro hne
    obtain ⟨code, h1, h2⟩ := hok.lookup hne
    refine ⟨code, h1, h2, ?_⟩
    unfold compress
    exact compressFlush_some _ code hne h1
  · intro he
    unfold compress compressFlush
    simp only [he, ne_eq, not_true_eq_false, if_false]

/-- C20. Bound on emitted codes: for every byte string `s`, the code at position
`j` of `compress s` is at least 0 and at most `255 + j`, i.e. below `256 + j`,
which is the size of the encoder dictionary whenever `j` codes have been
emitted; so the first code lies in `0..255`, and `decompress` never raises the
invalid-data error on `compress s`. -/
theorem emitted_code_bound (s : Str) :
    (∀ (j : Nat) (c : Int), (compress s)[j]? = some c →
      0 ≤ c ∧ c ≤ 255 + (j : Int) ∧ c < 256 + (j : Int)) ∧
    (∀ c : Int, (compress s)[0]? = some c → 0 ≤ c ∧ c ≤ 255) ∧
    (∀ p : Str, ((compressLoop p).dictionary.size : Int) =
      256 + ((compressLoop p).compressed_data.length : Int)) ∧
    decompress (compress s) ≠ .error .invalidData := by
  refine ⟨?_, ?_, ?_, ?_⟩
  · intro j c h
    have := compress_codes s j c h
    exact ⟨this.1, this.2, by omega⟩
  · intro c h
    have := compress_codes s 0 c h
    exact ⟨this.1, by simpa using this.2⟩
  · intro p
    rw [(encOK_loop p).size]
    push_cast
    rfl
  · by_cases hs : s = []
    · rw [hs, compress_nil]
      intro h
      cases h
    · rw [decompress_compress s hs]
      intro h
      cases h

end LZW
